import Mathlib

/-!
# Translation scanner of appstream-glib (`as-app-builder.c`)

A shallow embedding of `src/libappstream-glib/as-app-builder.c`: the two
catalog readers (gettext `.mo`, Qt `.qm`), the two directory walkers and the
orchestrating `as_app_builder_search_translations`, followed by theorems
about them.

Conventions of the embedding

* a byte is a `Fin 256`; a file's contents and a C string are lists of bytes
  (a C string without its terminating NUL);
* `guint`, `guint32` are naturals, every arithmetic result reduced
  modulo `2 ^ 32` where the C code can wrap;
* the code mutates the context in place, so every operation returns the
  status together with the context it leaves behind;
* a read at an index at or beyond the length of the buffer, a division by
  zero and a loop that has not finished within its fuel are statuses of
  their own, distinct from the `FALSE` plus `GError` returns of the code.
-/

namespace AsAppBuilder

/-! ## Data model -/

/-- One octet of a file or of a C string. -/
abbrev Byte := Fin 256

/-- A C string, without the terminating NUL. -/
abbrev CStr := List Byte

/-- A path as the list of components handed to `g_build_filename`. -/
abbrev Path := List CStr

/-- The C string of an ASCII literal, for writing concrete inputs. -/
def cstr (s : String) : CStr := s.data.map (fun c => Fin.ofNat c.toNat)

/-- How a call ended. `ok` is the `TRUE` return; `invalid`, `file_error` and
`dir_error` are the `FALSE` returns (with the `GError` "file is invalid", the
one of `g_file_get_contents`, the one of `g_dir_open`); the remaining three
are the behaviours C leaves undefined or unbounded. -/
inductive Status where
  | ok
  | invalid
  | file_error
  | dir_error
  | out_of_bounds (index : Nat)
  | div_by_zero
  | out_of_fuel
  deriving DecidableEq, Repr

/-- The struct `AsAppBuilderEntry` (lines 41-45). -/
structure AsAppBuilderEntry where
  locale : CStr
  nstrings : Nat
  percentage : Nat
  deriving DecidableEq, Repr

/-- The values of `AsTranslationKind` that the code tests for. -/
inductive AsTranslationKind where
  | unknown
  | gettext
  | qt
  deriving DecidableEq, Repr

/-- Modelled from the spec: the type `AsTranslation` is declared outside the
excerpt; the spec gives a descriptor a kind (gettext, qt or unspecified) and an
identifier string, read through `as_translation_get_kind` and
`as_translation_get_id`. -/
structure AsTranslation where
  kind : AsTranslationKind
  id : CStr
  deriving DecidableEq, Repr

/-- The struct `AsAppBuilderContext` (lines 47-51). `data` is the `GList`, head
first. -/
structure AsAppBuilderContext where
  max_nstrings : Nat
  data : List AsAppBuilderEntry
  translations : List AsTranslation
  deriving DecidableEq, Repr

/-- The function `as_app_builder_entry_new` (lines 56-62): a zeroed entry. -/
def as_app_builder_entry_new : AsAppBuilderEntry :=
  { locale := [], nstrings := 0, percentage := 0 }

/-- The function `as_app_builder_ctx_new` (lines 77-83) followed by the
assignment of `ctx->translations` (line 487). -/
def as_app_builder_ctx_new (translations : List AsTranslation) : AsAppBuilderContext :=
  { max_nstrings := 0, data := [], translations := translations }

/-! ## Machine words -/

deriving instance DecidableEq for Except

/-- The macro `GUINT32_SWAP_LE_BE`: reverses the four bytes of a 32-bit word. -/
def GUINT32_SWAP_LE_BE (w : Nat) : Nat :=
  (w % 256) * 2 ^ 24 + (w / 2 ^ 8 % 256) * 2 ^ 16 + (w / 2 ^ 16 % 256) * 2 ^ 8 + w / 2 ^ 24 % 256

/-- The macro `GUINT32_FROM_BE`: the identity on a big-endian host, the byte
swap on a little-endian one. -/
def GUINT32_FROM_BE (bigEndian : Bool) (w : Nat) : Nat :=
  if bigEndian then w else GUINT32_SWAP_LE_BE w

/-- The value of four consecutive bytes of memory read as one `guint32` by a
host of the given byte order. -/
def word_of_bytes (bigEndian : Bool) (b0 b1 b2 b3 : Byte) : Nat :=
  if bigEndian then b0.val * 2 ^ 24 + b1.val * 2 ^ 16 + b2.val * 2 ^ 8 + b3.val
  else b3.val * 2 ^ 24 + b2.val * 2 ^ 16 + b1.val * 2 ^ 8 + b0.val

/-- A native 32-bit load of `data[offset .. offset + 3]` (a struct field access
or `memcpy (&tmp, data + offset, 4)`). When one of the four bytes lies outside
the buffer the result is the first index read outside it. -/
def load_uint32 (bigEndian : Bool) (data : List Byte) (offset : Nat) : Except Nat Nat :=
  match data[offset]?, data[offset + 1]?, data[offset + 2]?, data[offset + 3]? with
  | some b0, some b1, some b2, some b3 => .ok (word_of_bytes bigEndian b0 b1 b2 b3)
  | _, _, _, _ => .error (max offset data.length)

/-! ## Gettext catalog reader -/

/-- The struct `AsAppBuilderGettextHeader` (lines 95-108): twelve `guint32`
fields, laid out without padding, so field number `k` is at byte `4 * k`. -/
structure AsAppBuilderGettextHeader where
  magic : Nat
  revision : Nat
  nstrings : Nat
  orig_tab_offset : Nat
  trans_tab_offset : Nat
  hash_tab_size : Nat
  hash_tab_offset : Nat
  n_sysdep_segments : Nat
  sysdep_segments_offset : Nat
  n_sysdep_strings : Nat
  orig_sysdep_tab_offset : Nat
  trans_sysdep_tab_offset : Nat
  deriving DecidableEq, Repr

/-- The view `(AsAppBuilderGettextHeader *) data` of a buffer that holds all
twelve words. -/
def gettext_header (bigEndian : Bool) (data : List Byte) : Option AsAppBuilderGettextHeader :=
  let w := fun k => (load_uint32 bigEndian data (4 * k)).toOption
  match w 0, w 1, w 2, w 3, w 4, w 5, w 6, w 7, w 8, w 9, w 10, w 11 with
  | some a0, some a1, some a2, some a3, some a4, some a5,
    some a6, some a7, some a8, some a9, some a10, some a11 =>
      some ⟨a0, a1, a2, a3, a4, a5, a6, a7, a8, a9, a10, a11⟩
  | _, _, _, _, _, _, _, _, _, _, _, _ => none

/-- Lines 140-149, shared by both readers: set the locale and the count of a
fresh entry, raise the running maximum, prepend the entry to the list. -/
def ctx_add_entry (ctx : AsAppBuilderContext) (locale : CStr) (nstrings : Nat) :
    AsAppBuilderContext :=
  let entry := { as_app_builder_entry_new with locale := locale, nstrings := nstrings }
  { ctx with
    max_nstrings := if entry.nstrings > ctx.max_nstrings then entry.nstrings else ctx.max_nstrings
    data := entry :: ctx.data }

/-- The function `as_app_builder_parse_file_gettext` (lines 113-150).
`contents` is what `g_file_get_contents` delivers for `filename` (`none` when it
fails); the length of the file is not asked for by the code. `h->magic` is the
word at byte 0 and `h->nstrings` the word at byte 8 of the buffer. -/
def as_app_builder_parse_file_gettext (bigEndian : Bool) (ctx : AsAppBuilderContext)
    (locale : CStr) (contents : Option (List Byte)) : Status × AsAppBuilderContext :=
  match contents with
  | none => (.file_error, ctx)
  | some data =>
    match load_uint32 bigEndian data 0 with
    | .error i => (.out_of_bounds i, ctx)
    | .ok magic =>
      if magic = 0x950412de then
        match load_uint32 bigEndian data 8 with
        | .error i => (.out_of_bounds i, ctx)
        | .ok nstrings => (.ok, ctx_add_entry ctx locale nstrings)
      else if magic = 0xde120495 then
        match load_uint32 bigEndian data 8 with
        | .error i => (.out_of_bounds i, ctx)
        | .ok nstrings => (.ok, ctx_add_entry ctx locale (GUINT32_SWAP_LE_BE nstrings))
      else
        (.invalid, ctx)

/-! ## Qt catalog reader -/

/-- The array `qm_magic` (lines 265-268). -/
def qm_magic : List Byte :=
  [0x3c, 0xb8, 0x64, 0x18, 0xca, 0xef, 0x9c, 0x95,
   0xcd, 0x21, 0x1c, 0xbf, 0x60, 0xa1, 0xbd, 0xdd]

/-- The function `_read_uint8` (lines 232-239): the byte at `offset` and the
advanced offset (a `guint32`), or the index when it is outside the buffer. -/
def _read_uint8 (data : List Byte) (offset : Nat) : Except Nat (Nat × Nat) :=
  match data[offset]? with
  | some tmp => .ok (tmp.val, (offset + 1) % 2 ^ 32)
  | none => .error offset

/-- The function `_read_uint32` (lines 241-248): a native load of four bytes,
converted from big endian, and the advanced offset. -/
def _read_uint32 (bigEndian : Bool) (data : List Byte) (offset : Nat) : Except Nat (Nat × Nat) :=
  match load_uint32 bigEndian data offset with
  | .ok tmp => .ok (GUINT32_FROM_BE bigEndian tmp, (offset + 4) % 2 ^ 32)
  | .error i => .error i

/-- How the tag loop ended. -/
inductive QmLoop where
  | done (nstrings : Nat)
  | out_of_bounds (index : Nat)
  | out_of_fuel
  deriving DecidableEq, Repr

/-- The loop `while (m < len)` of `as_app_builder_parse_file_qt` (lines
297-337), one iteration per unit of fuel; `m` and `nstrings` are the values of
the C variables on entry. -/
def qm_read_data (bigEndian : Bool) (data : List Byte) (len : Nat) :
    Nat → Nat → Nat → QmLoop
  | 0, m, nstrings => if m < len then .out_of_fuel else .done nstrings
  | fuel + 1, m, nstrings =>
    if m < len then
      match _read_uint8 data m with
      | .error i => .out_of_bounds i
      | .ok (tag, m) =>
        if tag = 1 then
          qm_read_data bigEndian data len fuel m nstrings
        else if tag = 5 then
          qm_read_data bigEndian data len fuel ((m + 4) % 2 ^ 32) nstrings
        else if tag = 3 then
          match _read_uint32 bigEndian data m with
          | .error i => .out_of_bounds i
          | .ok (tag_len, m) =>
            qm_read_data bigEndian data len fuel
              (if tag_len < 0xffffffff then (m + tag_len) % 2 ^ 32 else m)
              ((nstrings + 1) % 2 ^ 32)
        else if tag = 6 ∨ tag = 7 ∨ tag = 8 then
          match _read_uint32 bigEndian data m with
          | .error i => .out_of_bounds i
          | .ok (tag_len, m) =>
            qm_read_data bigEndian data len fuel ((m + tag_len) % 2 ^ 32) nstrings
        else
          qm_read_data bigEndian data len fuel 0xffffffff nstrings
    else .done nstrings

/-- The function `as_app_builder_parse_file_qt` (lines 253-349). `contents` is
what `g_file_get_contents` delivers; the length is stored in the `guint32`
variable `len`. `fuel` bounds the iterations of the tag loop. -/
def as_app_builder_parse_file_qt (bigEndian : Bool) (fuel : Nat) (ctx : AsAppBuilderContext)
    (locale : CStr) (contents : Option (List Byte)) : Status × AsAppBuilderContext :=
  match contents with
  | none => (.file_error, ctx)
  | some data =>
    let len := data.length % 2 ^ 32
    if len < qm_magic.length ∨ data.take qm_magic.length ≠ qm_magic then
      (.invalid, ctx)
    else
      let m := qm_magic.length
      match _read_uint8 data m with
      | .error i => (.out_of_bounds i, ctx)
      | .ok (_, m) =>
        match _read_uint32 bigEndian data m with
        | .error i => (.out_of_bounds i, ctx)
        | .ok (addr, m) =>
          let m := (m + addr) % 2 ^ 32
          match _read_uint8 data m with
          | .error i => (.out_of_bounds i, ctx)
          | .ok (_, m) =>
            match _read_uint32 bigEndian data m with
            | .error i => (.out_of_bounds i, ctx)
            | .ok (_, m) =>
              match qm_read_data bigEndian data len fuel m 0 with
              | .out_of_bounds i => (.out_of_bounds i, ctx)
              | .out_of_fuel => (.out_of_fuel, ctx)
              | .done nstrings => (.ok, ctx_add_entry ctx locale nstrings)

/-! ## The filesystem and the directory walkers -/

/-- The GLib calls through which the code sees the filesystem:
`g_file_test (path, G_FILE_TEST_EXISTS)`, `g_dir_open` with the names that
`g_dir_read_name` then returns in order (`none` when the open fails), and
`g_file_get_contents` (`none` when it fails). -/
structure FileSystem where
  file_test_exists : Path → Bool
  dir_open : Path → Option (List CStr)
  get_contents : Path → Option (List Byte)

/-- Modelled from the spec: `AsAppBuilderFlags` is declared outside the
excerpt; the spec gives it a boolean "use fallbacks" option, tested by
`flags & AS_APP_BUILDER_FLAG_USE_FALLBACKS`. -/
structure AsAppBuilderFlags where
  use_fallbacks : Bool
  deriving DecidableEq, Repr

/-- The inner `for` loop of `as_app_builder_search_locale_gettext` (lines
180-195) over the translations from index `i` on, for one file name. The
boolean is `found_anything`. -/
def gettext_match_translations (bigEndian : Bool) (fs : FileSystem) (locale filename : CStr)
    (path : Path) : List AsTranslation → AsAppBuilderContext → Bool →
    Status × AsAppBuilderContext × Bool
  | [], ctx, found => (.ok, ctx, found)
  | t :: ts, ctx, found =>
    if t.kind ≠ .gettext ∧ t.kind ≠ .unknown then
      gettext_match_translations bigEndian fs locale filename path ts ctx found
    else if filename = t.id ++ cstr ".mo" then
      match as_app_builder_parse_file_gettext bigEndian ctx locale (fs.get_contents path) with
      | (.ok, ctx) => gettext_match_translations bigEndian fs locale filename path ts ctx true
      | (st, ctx) => (st, ctx, found)
    else
      gettext_match_translations bigEndian fs locale filename path ts ctx found

/-- The first pass of `as_app_builder_search_locale_gettext` (lines 175-197)
over the names of the directory still to be read; `mo_paths` collects the
paths in reading order. -/
def gettext_first_pass (bigEndian : Bool) (fs : FileSystem) (locale : CStr)
    (messages_path : Path) : List CStr → AsAppBuilderContext → Bool → List Path →
    Status × AsAppBuilderContext × Bool × List Path
  | [], ctx, found, mo_paths => (.ok, ctx, found, mo_paths)
  | filename :: rest, ctx, found, mo_paths =>
    let path := messages_path ++ [filename]
    if ¬ fs.file_test_exists path then
      gettext_first_pass bigEndian fs locale messages_path rest ctx found mo_paths
    else
      match gettext_match_translations bigEndian fs locale filename path
          ctx.translations ctx found with
      | (.ok, ctx, found) =>
        gettext_first_pass bigEndian fs locale messages_path rest ctx found (mo_paths ++ [path])
      | (st, ctx, found) => (st, ctx, found, mo_paths)

/-- The fallback loop of `as_app_builder_search_locale_gettext` (lines
206-213). -/
def gettext_fallback (bigEndian : Bool) (fs : FileSystem) (locale : CStr) :
    List Path → AsAppBuilderContext → Status × AsAppBuilderContext
  | [], ctx => (.ok, ctx)
  | filename :: rest, ctx =>
    match as_app_builder_parse_file_gettext bigEndian ctx locale (fs.get_contents filename) with
    | (.ok, ctx) => gettext_fallback bigEndian fs locale rest ctx
    | (st, ctx) => (st, ctx)

/-- The function `as_app_builder_search_locale_gettext` (lines 155-217). -/
def as_app_builder_search_locale_gettext (bigEndian : Bool) (fs : FileSystem)
    (ctx : AsAppBuilderContext) (locale : CStr) (messages_path : Path)
    (flags : AsAppBuilderFlags) : Status × AsAppBuilderContext :=
  match fs.dir_open messages_path with
  | none => (.dir_error, ctx)
  | some names =>
    match gettext_first_pass bigEndian fs locale messages_path names ctx false [] with
    | (.ok, ctx, found_anything, mo_paths) =>
      if found_anything = true then (.ok, ctx)
      else if flags.use_fallbacks then gettext_fallback bigEndian fs locale mo_paths ctx
      else (.ok, ctx)
    | (st, ctx, _, _) => (st, ctx)

/-- The loop over the names of one translations directory in
`as_app_builder_search_translations_qt` (lines 386-399). The locale is the
copy of `filename + strlen (id) + 1`, cut at its first `.` by `g_strdelimit`;
when the name is exactly the identifier that pointer is past the NUL of the
name, outside the string. -/
def qt_read_dir (bigEndian : Bool) (fuel : Nat) (fs : FileSystem) (t : AsTranslation)
    (path : Path) : List CStr → AsAppBuilderContext → Status × AsAppBuilderContext
  | [], ctx => (.ok, ctx)
  | filename :: rest, ctx =>
    if t.kind ≠ .qt ∧ t.kind ≠ .unknown then
      qt_read_dir bigEndian fuel fs t path rest ctx
    else if ¬ t.id.isPrefixOf filename then
      qt_read_dir bigEndian fuel fs t path rest ctx
    else if filename.length < t.id.length + 1 then
      (.out_of_bounds (t.id.length + 1), ctx)
    else
      let locale := (filename.drop (t.id.length + 1)).takeWhile (fun c => c ≠ 0x2e)
      let fn := path ++ [filename]
      match as_app_builder_parse_file_qt bigEndian fuel ctx locale (fs.get_contents fn) with
      | (.ok, ctx) => qt_read_dir bigEndian fuel fs t path rest ctx
      | (st, ctx) => (st, ctx)

/-- The loop over the translations in `as_app_builder_search_translations_qt`
(lines 363-400), from the translation at the head of the list on. -/
def qt_search_from (bigEndian : Bool) (fuel : Nat) (fs : FileSystem) (pfx : CStr) :
    List AsTranslation → AsAppBuilderContext → Status × AsAppBuilderContext
  | [], ctx => (.ok, ctx)
  | t :: ts, ctx =>
    let install_dir := t.id
    let path := [pfx, cstr "share", install_dir, cstr "translations"]
    if ¬ fs.file_test_exists path then
      (.ok, ctx)
    else
      match fs.dir_open path with
      | none => (.dir_error, ctx)
      | some names =>
        match qt_read_dir bigEndian fuel fs t path names ctx with
        | (.ok, ctx) => qt_search_from bigEndian fuel fs pfx ts ctx
        | (st, ctx) => (st, ctx)

/-- The function `as_app_builder_search_translations_qt` (lines 354-403); the
flags are not used by it. -/
def as_app_builder_search_translations_qt (bigEndian : Bool) (fuel : Nat) (fs : FileSystem)
    (ctx : AsAppBuilderContext) (pfx : CStr) (_flags : AsAppBuilderFlags) :
    Status × AsAppBuilderContext :=
  qt_search_from bigEndian fuel fs pfx ctx.translations ctx

/-- The loop over the locale names in
`as_app_builder_search_translations_gettext` (lines 424-431). -/
def gettext_search_locales (bigEndian : Bool) (fs : FileSystem) (path : Path)
    (flags : AsAppBuilderFlags) : List CStr → AsAppBuilderContext →
    Status × AsAppBuilderContext
  | [], ctx => (.ok, ctx)
  | locale :: rest, ctx =>
    let fn := path ++ [locale, cstr "LC_MESSAGES"]
    if ¬ fs.file_test_exists fn then
      gettext_search_locales bigEndian fs path flags rest ctx
    else
      match as_app_builder_search_locale_gettext bigEndian fs ctx locale fn flags with
      | (.ok, ctx) => gettext_search_locales bigEndian fs path flags rest ctx
      | (st, ctx) => (st, ctx)

/-- The function `as_app_builder_search_translations_gettext` (lines
408-433). -/
def as_app_builder_search_translations_gettext (bigEndian : Bool) (fs : FileSystem)
    (ctx : AsAppBuilderContext) (pfx : CStr) (flags : AsAppBuilderFlags) :
    Status × AsAppBuilderContext :=
  let path := [pfx, cstr "share", cstr "locale"]
  if ¬ fs.file_test_exists path then
    (.ok, ctx)
  else
    match fs.dir_open path with
    | none => (.dir_error, ctx)
    | some locales => gettext_search_locales bigEndian fs path flags locales ctx

/-! ## The scan -/

/-- The libc `strcmp` behind `g_strcmp0` on two non-NULL strings: negative,
zero or positive as the first string is below, equal to or above the second in
the byte-wise lexicographic order. -/
def g_strcmp0 : CStr → CStr → Int
  | [], [] => 0
  | [], _ :: _ => -1
  | _ :: _, [] => 1
  | a :: as, b :: bs => if a < b then -1 else if b < a then 1 else g_strcmp0 as bs

/-- The function `as_app_builder_entry_sort_cb` (lines 438-443). -/
def as_app_builder_entry_sort_cb (a b : AsAppBuilderEntry) : Int :=
  g_strcmp0 a.locale b.locale

/-- GLib's `g_list_sort`, which is outside the repository: a stable sort that
puts `a` before `b` when `compare_func (a, b) <= 0`. The stably sorted
arrangement of a list is unique, and stable insertion computes it. -/
def g_list_sort (list : List AsAppBuilderEntry)
    (compare_func : AsAppBuilderEntry → AsAppBuilderEntry → Int) : List AsAppBuilderEntry :=
  list.insertionSort (fun a b => compare_func a b ≤ 0)

/-- The expression `MIN (e->nstrings * 100 / ctx->max_nstrings, 100)` of line
500 for a nonzero divisor: a `guint` product, so taken modulo `2 ^ 32`. -/
def percentage_of (nstrings max_nstrings : Nat) : Nat :=
  let q := nstrings * 100 % 2 ^ 32 / max_nstrings
  if q < 100 then q else 100

/-- The loop "calculate percentages" (lines 498-501) over the list from its
head; `none` when an iteration divides by a zero `max_nstrings`. -/
def calculate_percentages (max_nstrings : Nat) :
    List AsAppBuilderEntry → Option (List AsAppBuilderEntry)
  | [] => some []
  | e :: l =>
    if max_nstrings = 0 then none
    else
      match calculate_percentages max_nstrings l with
      | none => none
      | some l => some ({ e with percentage := percentage_of e.nstrings max_nstrings } :: l)

/-- The loop "add results" (lines 507-512): the `as_app_add_language` calls,
in order, as (percentage, locale) pairs. -/
def add_results (min_percentage : Nat) : List AsAppBuilderEntry → List (Nat × CStr)
  | [] => []
  | e :: l =>
    if e.percentage < min_percentage then add_results min_percentage l
    else (e.percentage, e.locale) :: add_results min_percentage l

/-- Lines 486-495 of `as_app_builder_search_translations`: a fresh context
holding the translations of the application, then the Qt walker, then the
gettext walker. -/
def search_catalogs (bigEndian : Bool) (fuel : Nat) (fs : FileSystem)
    (translations : List AsTranslation) (pfx : CStr) (flags : AsAppBuilderFlags) :
    Status × AsAppBuilderContext :=
  let ctx := as_app_builder_ctx_new translations
  match as_app_builder_search_translations_qt bigEndian fuel fs ctx pfx flags with
  | (.ok, ctx) => as_app_builder_search_translations_gettext bigEndian fs ctx pfx flags
  | (st, ctx) => (st, ctx)

/-- The function `as_app_builder_search_translations` (lines 474-514).
`translations` is what `as_app_get_translations (app)` returns; the result is
the status and the list of `as_app_add_language` calls made on `app`. -/
def as_app_builder_search_translations (bigEndian : Bool) (fuel : Nat) (fs : FileSystem)
    (translations : List AsTranslation) (pfx : CStr) (min_percentage : Nat)
    (flags : AsAppBuilderFlags) : Status × List (Nat × CStr) :=
  match search_catalogs bigEndian fuel fs translations pfx flags with
  | (.ok, ctx) =>
    match calculate_percentages ctx.max_nstrings ctx.data with
    | none => (.div_by_zero, [])
    | some data =>
      let data := g_list_sort data as_app_builder_entry_sort_cb
      (.ok, add_results min_percentage data)
  | (st, _) => (st, [])

/-! ## Well-formed Qt catalogs -/

/-- The four bytes of a 32-bit value, most significant first. -/
def be32 (n : Nat) : List Byte :=
  [Fin.ofNat (n / 2 ^ 24), Fin.ofNat (n / 2 ^ 16), Fin.ofNat (n / 2 ^ 8), Fin.ofNat n]

/-- One record of the tag stream of a Qt catalog, in the layout that the tag
loop of `as_app_builder_parse_file_qt` walks over. -/
inductive QmRecord where
  | end_marker
  | obsolete1 (b0 b1 b2 b3 : Byte)
  | translation (payload : List Byte)
  | translation_null
  | source_text (payload : List Byte)
  | context (payload : List Byte)
  | comment (payload : List Byte)
  deriving DecidableEq, Repr

/-- The bytes of a record: the tag, then for tag 5 four bytes, for tags 3, 6, 7
and 8 the big-endian length and the payload; the tag-3 record with the all-ones
length has no payload. -/
def QmRecord.encode : QmRecord → List Byte
  | .end_marker => [1]
  | .obsolete1 b0 b1 b2 b3 => [5, b0, b1, b2, b3]
  | .translation payload => 3 :: (be32 payload.length ++ payload)
  | .translation_null => 3 :: be32 0xffffffff
  | .source_text payload => 6 :: (be32 payload.length ++ payload)
  | .context payload => 7 :: (be32 payload.length ++ payload)
  | .comment payload => 8 :: (be32 payload.length ++ payload)

/-- The length of the payload, if there is one, is below the all-ones value. -/
def QmRecord.well_formed : QmRecord → Bool
  | .translation payload => decide (payload.length < 0xffffffff)
  | .source_text payload => decide (payload.length < 0xffffffff)
  | .context payload => decide (payload.length < 0xffffffff)
  | .comment payload => decide (payload.length < 0xffffffff)
  | _ => true

/-- Whether the record has tag 3. -/
def QmRecord.is_translation : QmRecord → Bool
  | .translation _ => true
  | .translation_null => true
  | _ => false

/-- The tag stream of a list of records. -/
def qm_stream : List QmRecord → List Byte
  | [] => []
  | r :: rs => r.encode ++ qm_stream rs

/-- The number of tag-3 records. -/
def count_translations : List QmRecord → Nat
  | [] => 0
  | r :: rs => (if r.is_translation then 1 else 0) + count_translations rs

/-- A Qt catalog: the magic, the flag byte, the big-endian length of the part
to skip, that part, one unused byte and one unused 32-bit field, and the tag
stream. -/
def qm_file (flag : Byte) (skipped : List Byte) (u0 x0 x1 x2 x3 : Byte)
    (rs : List QmRecord) : List Byte :=
  qm_magic ++ flag :: (be32 skipped.length ++ (skipped ++ u0 :: x0 :: x1 :: x2 :: x3 :: qm_stream rs))

/-! ## Concrete inputs -/

/-- A filesystem given by a table of directories with their listings and a
table of files with their contents. -/
def fs_of_tables (dirs : List (Path × List CStr)) (files : List (Path × List Byte)) : FileSystem :=
  { file_test_exists := fun p => (dirs.lookup p).isSome || (files.lookup p).isSome
    dir_open := fun p => dirs.lookup p
    get_contents := fun p => files.lookup p }

/-- A 48-byte gettext header as a little-endian host writes it: the magic, a
zero revision, the given four bytes as third word, 7 as fourth word, zeros. -/
def mo_le (n0 n1 n2 n3 : Byte) : List Byte :=
  [0xde, 0x12, 0x04, 0x95, 0, 0, 0, 0, n0, n1, n2, n3, 7, 0, 0, 0] ++ List.replicate 32 0

/-- The empty context of a scan without translations. -/
def ctx_empty : AsAppBuilderContext := as_app_builder_ctx_new []

/-- The installation directory of the examples. -/
def usr : CStr := cstr "/usr"

/-- The descriptor of the examples: unspecified kind, identifier `app`. -/
def app_any : AsTranslation := { kind := .unknown, id := cstr "app" }

/-- The path of `LC_MESSAGES` for a locale under `/usr/share/locale`. -/
def lc_messages (locale : CStr) : Path :=
  [usr, cstr "share", cstr "locale", locale, cstr "LC_MESSAGES"]

/-- A Qt catalog with two translation records (one of them with the all-ones
length) and an end record. -/
def qm_two : List Byte :=
  qm_magic ++ [0x42, 0, 0, 0, 0, 0, 0, 0, 0, 0] ++
    [3, 0, 0, 0, 1, 0x41, 3, 0xff, 0xff, 0xff, 0xff, 1]

/-- An installation with `app_de.qm` (2 strings) under
`/usr/share/app/translations`, and `app.mo` for `de` (4 strings) and for `fr`
(1 string) under `/usr/share/locale`. -/
def fs_both : FileSystem :=
  fs_of_tables
    [([usr, cstr "share", cstr "app", cstr "translations"], [cstr "app_de.qm", cstr "other.txt"]),
     ([usr, cstr "share", cstr "locale"], [cstr "de", cstr "fr"]),
     (lc_messages (cstr "de"), [cstr "app.mo"]),
     (lc_messages (cstr "fr"), [cstr "app.mo"])]
    [([usr, cstr "share", cstr "app", cstr "translations", cstr "app_de.qm"], qm_two),
     (lc_messages (cstr "de") ++ [cstr "app.mo"], mo_le 4 0 0 0),
     (lc_messages (cstr "fr") ++ [cstr "app.mo"], mo_le 1 0 0 0)]

/-- An installation whose only catalog is `app.mo` for `de`, with a header that
announces 42949673 strings (0x028f5c29). -/
def fs_huge : FileSystem :=
  fs_of_tables
    [([usr, cstr "share", cstr "locale"], [cstr "de"]),
     (lc_messages (cstr "de"), [cstr "app.mo"])]
    [(lc_messages (cstr "de") ++ [cstr "app.mo"], mo_le 0x29 0x5c 0x8f 0x02)]

/-! ## The gettext search of one directory, as a list of files -/

/-- Whether a descriptor names the file in the exact phase: its kind is gettext
or unspecified and the file name is `<id>.mo`. -/
def gettext_descriptor_matches (filename : CStr) (t : AsTranslation) : Bool :=
  decide ((t.kind = .gettext ∨ t.kind = .unknown) ∧ filename = t.id ++ cstr ".mo")

/-- The paths of the exact phase: for each listed name that passes the
existence test, in listing order, its path once per matching descriptor. -/
def gettext_exact_paths (fs : FileSystem) (translations : List AsTranslation)
    (messages_path : Path) : List CStr → List Path
  | [] => []
  | filename :: rest =>
    (if fs.file_test_exists (messages_path ++ [filename]) then
      (translations.filter (gettext_descriptor_matches filename)).map
        (fun _ => messages_path ++ [filename])
    else []) ++ gettext_exact_paths fs translations messages_path rest

/-- The paths of all listed names that pass the existence test, in listing
order. -/
def gettext_candidate_paths (fs : FileSystem) (messages_path : Path) : List CStr → List Path
  | [] => []
  | filename :: rest =>
    (if fs.file_test_exists (messages_path ++ [filename]) then [messages_path ++ [filename]]
    else []) ++ gettext_candidate_paths fs messages_path rest

/-- The files that one `LC_MESSAGES` directory contributes: the exact matches
when there is one, else every candidate when fallbacks are enabled, else
none. -/
def gettext_paths_to_parse (fs : FileSystem) (translations : List AsTranslation)
    (messages_path : Path) (names : List CStr) (flags : AsAppBuilderFlags) : List Path :=
  if gettext_exact_paths fs translations messages_path names ≠ [] then
    gettext_exact_paths fs translations messages_path names
  else if flags.use_fallbacks then gettext_candidate_paths fs messages_path names
  else []

/-- The exact matches by name alone, without the existence test: for each
listed name, in listing order, its path once per matching descriptor. -/
def gettext_exact_by_name (translations : List AsTranslation) (messages_path : Path) :
    List CStr → List Path
  | [] => []
  | filename :: rest =>
    (translations.filter (gettext_descriptor_matches filename)).map
        (fun _ => messages_path ++ [filename]) ++
      gettext_exact_by_name translations messages_path rest

/-- The files that one `LC_MESSAGES` directory would contribute if the choice
were made on the listing alone: the files named `<id>.mo` for a descriptor of
kind gettext or unspecified, once per such descriptor, when there is one; else
every file in the listing when fallbacks are enabled; else none. -/
def gettext_paths_by_name (translations : List AsTranslation) (messages_path : Path)
    (names : List CStr) (flags : AsAppBuilderFlags) : List Path :=
  if gettext_exact_by_name translations messages_path names ≠ [] then
    gettext_exact_by_name translations messages_path names
  else if flags.use_fallbacks then names.map (fun filename => messages_path ++ [filename])
  else []

/-! ## Sequences of reader calls -/

/-- The largest count among the entries of a list, 0 for the empty list. -/
def max_nstrings_of : List AsAppBuilderEntry → Nat
  | [] => 0
  | e :: l => max e.nstrings (max_nstrings_of l)

/-- One call of a catalog reader with its arguments other than the context. -/
inductive ReaderCall where
  | gettext (bigEndian : Bool) (locale : CStr) (contents : Option (List Byte))
  | qt (bigEndian : Bool) (fuel : Nat) (locale : CStr) (contents : Option (List Byte))

/-- The call made on a context. -/
def ReaderCall.run : ReaderCall → AsAppBuilderContext → Status × AsAppBuilderContext
  | .gettext bigEndian locale contents, ctx =>
    as_app_builder_parse_file_gettext bigEndian ctx locale contents
  | .qt bigEndian fuel locale contents, ctx =>
    as_app_builder_parse_file_qt bigEndian fuel ctx locale contents

/-- The context after a sequence of reader calls, each made on the context
that the call before it left behind. -/
def run_readers : List ReaderCall → AsAppBuilderContext → AsAppBuilderContext
  | [], ctx => ctx
  | c :: cs, ctx => run_readers cs (c.run ctx).2

/-! ## The Qt walk, as a list of locales -/

/-- A string cut at its first `.`. -/
def cut_at_dot : CStr → CStr
  | [] => []
  | c :: cs => if c = 0x2e then [] else c :: cut_at_dot cs

/-- The locale that the name of a Qt catalog stands for, in the words of the
spec: the part of the file name after the identifier and one separator
character, cut at the first following `.`. -/
def qt_locale_of_name (id filename : CStr) : CStr :=
  match filename.drop id.length with
  | [] => []
  | _ :: rest => cut_at_dot rest

/-- Whether a file name of the translations directory of a descriptor counts as
one of its catalogs: the descriptor is of kind qt or unspecified and the name
starts with its identifier. -/
def qt_name_qualifies (t : AsTranslation) (filename : CStr) : Bool :=
  decide (t.kind = .qt ∨ t.kind = .unknown) && t.id.isPrefixOf filename

/-- The locales of the catalogs that the Qt walk comes across, in the order of
the walk: for each descriptor in turn, as long as its directory
`<prefix>/share/<id>/translations` exists and opens, the locale of every
qualifying name of the listing. -/
def qt_recorded_locales (fs : FileSystem) (pfx : CStr) : List AsTranslation → List CStr
  | [] => []
  | t :: ts =>
    if fs.file_test_exists [pfx, cstr "share", t.id, cstr "translations"] then
      match fs.dir_open [pfx, cstr "share", t.id, cstr "translations"] with
      | none => []
      | some names =>
        (names.filter (qt_name_qualifies t)).map (qt_locale_of_name t.id) ++
          qt_recorded_locales fs pfx ts
    else []

/-! ## Further concrete inputs -/

/-- A 48-byte file of zeros: no gettext magic. -/
def mo_bad : List Byte := List.replicate 48 0

/-- An installation with a good `app.mo` for `de` (4 strings) and an `app.mo`
without magic for `fr`. -/
def fs_bad_fr : FileSystem :=
  fs_of_tables
    [([usr, cstr "share", cstr "locale"], [cstr "de", cstr "fr"]),
     (lc_messages (cstr "de"), [cstr "app.mo"]),
     (lc_messages (cstr "fr"), [cstr "app.mo"])]
    [(lc_messages (cstr "de") ++ [cstr "app.mo"], mo_le 4 0 0 0),
     (lc_messages (cstr "fr") ++ [cstr "app.mo"], mo_bad)]

/-- An installation in which nothing exists. -/
def fs_nothing : FileSystem := fs_of_tables [] []

/-- An installation whose `LC_MESSAGES` directory for `de` lists `app.mo`
(3 strings) and `old.mo`, a name that fails the existence test and cannot be
read (a dangling link). -/
def fs_dangling : FileSystem :=
  fs_of_tables
    [([usr, cstr "share", cstr "locale"], [cstr "de"]),
     (lc_messages (cstr "de"), [cstr "app.mo", cstr "old.mo"])]
    [(lc_messages (cstr "de") ++ [cstr "app.mo"], mo_le 3 0 0 0)]

/-- A Qt descriptor whose translations directory exists in none of the
examples. -/
def gone_qt : AsTranslation := { kind := .qt, id := cstr "gone" }

/-- An installation whose only catalog is `app.mo` for `de`, with a valid
header that announces 0 strings. -/
def fs_zero : FileSystem :=
  fs_of_tables
    [([usr, cstr "share", cstr "locale"], [cstr "de"]),
     (lc_messages (cstr "de"), [cstr "app.mo"])]
    [(lc_messages (cstr "de") ++ [cstr "app.mo"], mo_le 0 0 0 0)]

/-- A 31-byte Qt catalog: the magic, a 10-byte header with a zero skip, and one
record with tag 6 and length 0xfffffffb. -/
def qm_cycle : List Byte :=
  qm_magic ++ [0x42, 0, 0, 0, 0, 0, 0, 0, 0, 0] ++ [6, 0xff, 0xff, 0xff, 0xfb]

/-- A Qt descriptor with identifier `foo`. -/
def foo_qt : AsTranslation := { kind := .qt, id := cstr "foo" }

/-- The translations directory of `foo`. -/
def foo_dir : Path := [usr, cstr "share", cstr "foo", cstr "translations"]

/-- A gettext descriptor with identifier `foo`. -/
def foo_gettext : AsTranslation := { kind := .gettext, id := cstr "foo" }

/-- An installation whose directory `/usr/share/foo/translations` lists the Qt
catalogs `foo_de.qm` and `foo_pt_BR.qm` (2 strings each) and the file
`bar_fr.qm`, whose name does not start with `foo`. -/
def fs_foo : FileSystem :=
  fs_of_tables [(foo_dir, [cstr "foo_de.qm", cstr "foo_pt_BR.qm", cstr "bar_fr.qm"])]
    [(foo_dir ++ [cstr "foo_de.qm"], qm_two),
     (foo_dir ++ [cstr "foo_pt_BR.qm"], qm_two),
     (foo_dir ++ [cstr "bar_fr.qm"], qm_two)]

/-! # Theorems -/

/-! ## Reading words -/

theorem load_uint32_some (bigEndian : Bool) (data : List Byte) (offset : Nat)
    (h : offset + 4 ≤ data.length) : ∃ w, load_uint32 bigEndian data offset = .ok w := by
  have h0 : offset < data.length := by omega
  have h1 : offset + 1 < data.length := by omega
  have h2 : offset + 2 < data.length := by omega
  have h3 : offset + 3 < data.length := by omega
  exact ⟨word_of_bytes bigEndian data[offset] data[offset + 1] data[offset + 2] data[offset + 3],
    by simp [load_uint32, List.getElem?_eq_getElem h0, List.getElem?_eq_getElem h1,
      List.getElem?_eq_getElem h2, List.getElem?_eq_getElem h3]⟩

theorem getElem?_append_at (pre rest : List Byte) (b : Byte) (k : Nat) :
    (pre ++ b :: rest)[pre.length + k]? = (b :: rest)[k]? := by
  rw [List.getElem?_append_right (by omega)]
  congr 1
  omega

theorem read_uint8_at (pre rest : List Byte) (b : Byte) (h : pre.length + 1 < 2 ^ 32) :
    _read_uint8 (pre ++ b :: rest) pre.length = .ok (b.val, pre.length + 1) := by
  have := getElem?_append_at pre rest b 0
  simp only [Nat.add_zero] at this
  have h' : (pre.length + 1) % 2 ^ 32 = pre.length + 1 := Nat.mod_eq_of_lt h
  simp only [_read_uint8, this, List.getElem?_cons_zero, h']

theorem from_be_word (bigEndian : Bool) (b0 b1 b2 b3 : Byte) :
    GUINT32_FROM_BE bigEndian (word_of_bytes bigEndian b0 b1 b2 b3) =
      b0.val * 2 ^ 24 + b1.val * 2 ^ 16 + b2.val * 2 ^ 8 + b3.val := by
  have h0 := b0.isLt
  have h1 := b1.isLt
  have h2 := b2.isLt
  have h3 := b3.isLt
  cases bigEndian
  · simp only [GUINT32_FROM_BE, word_of_bytes, GUINT32_SWAP_LE_BE, Bool.false_eq_true, if_false]
    omega
  · simp only [GUINT32_FROM_BE, word_of_bytes, if_true]

theorem be32_value (n : Nat) (hn : n < 2 ^ 32) :
    (Fin.ofNat (n / 2 ^ 24) : Byte).val * 2 ^ 24 + (Fin.ofNat (n / 2 ^ 16) : Byte).val * 2 ^ 16 +
      (Fin.ofNat (n / 2 ^ 8) : Byte).val * 2 ^ 8 + (Fin.ofNat n : Byte).val = n := by
  simp only [Fin.ofNat]
  omega

theorem read_uint32_at (bigEndian : Bool) (pre rest : List Byte) (n : Nat) (hn : n < 2 ^ 32)
    (h : pre.length + 4 < 2 ^ 32) :
    _read_uint32 bigEndian (pre ++ (be32 n ++ rest)) pre.length = .ok (n, pre.length + 4) := by
  have e0 := getElem?_append_at pre (be32 n ++ rest).tail (Fin.ofNat (n / 2 ^ 24)) 0
  have e1 := getElem?_append_at pre (be32 n ++ rest).tail (Fin.ofNat (n / 2 ^ 24)) 1
  have e2 := getElem?_append_at pre (be32 n ++ rest).tail (Fin.ofNat (n / 2 ^ 24)) 2
  have e3 := getElem?_append_at pre (be32 n ++ rest).tail (Fin.ofNat (n / 2 ^ 24)) 3
  have h' : (pre.length + 4) % 2 ^ 32 = pre.length + 4 := Nat.mod_eq_of_lt h
  simp only [be32, List.cons_append, List.tail_cons, Nat.add_zero, List.nil_append] at e0 e1 e2 e3
  simp only [_read_uint32, load_uint32, be32, List.cons_append, List.nil_append, e0, e1, e2, e3,
    List.getElem?_cons_zero, List.getElem?_cons_succ, from_be_word, be32_value n hn, h']

theorem read_uint32_bytes (bigEndian : Bool) (pre rest : List Byte) (b0 b1 b2 b3 : Byte)
    (h : pre.length + 4 < 2 ^ 32) :
    _read_uint32 bigEndian (pre ++ b0 :: b1 :: b2 :: b3 :: rest) pre.length =
      .ok (GUINT32_FROM_BE bigEndian (word_of_bytes bigEndian b0 b1 b2 b3), pre.length + 4) := by
  have e0 := getElem?_append_at pre (b1 :: b2 :: b3 :: rest) b0 0
  have e1 := getElem?_append_at pre (b1 :: b2 :: b3 :: rest) b0 1
  have e2 := getElem?_append_at pre (b1 :: b2 :: b3 :: rest) b0 2
  have e3 := getElem?_append_at pre (b1 :: b2 :: b3 :: rest) b0 3
  have h' : (pre.length + 4) % 2 ^ 32 = pre.length + 4 := Nat.mod_eq_of_lt h
  simp only [Nat.add_zero] at e0
  simp only [_read_uint32, load_uint32, e0, e1, e2, e3,
    List.getElem?_cons_zero, List.getElem?_cons_succ, h']


/-! ## The gettext reader -/

/-- Claim C1: for every buffer that holds the whole 12-word header, the header
view exists; when its magic is 0x950412de the reader succeeds and prepends one
entry whose count is the field `nstrings` as stored, and when its magic is
0xde120495 it succeeds and prepends one entry whose count is the byte swap of
that field. -/
theorem gettext_reports_header_count (bigEndian : Bool) (ctx : AsAppBuilderContext)
    (locale : CStr) (data : List Byte) (hlen : 48 ≤ data.length) :
    ∃ h, gettext_header bigEndian data = some h ∧
      (h.magic = 0x950412de →
        (as_app_builder_parse_file_gettext bigEndian ctx locale (some data)).1 = .ok ∧
        (as_app_builder_parse_file_gettext bigEndian ctx locale (some data)).2.data =
          { locale := locale, nstrings := h.nstrings, percentage := 0 } :: ctx.data) ∧
      (h.magic = 0xde120495 →
        (as_app_builder_parse_file_gettext bigEndian ctx locale (some data)).1 = .ok ∧
        (as_app_builder_parse_file_gettext bigEndian ctx locale (some data)).2.data =
          { locale := locale, nstrings := GUINT32_SWAP_LE_BE h.nstrings, percentage := 0 }
            :: ctx.data) := by
  obtain ⟨w0, h0⟩ := load_uint32_some bigEndian data 0 (by omega)
  obtain ⟨w1, h1⟩ := load_uint32_some bigEndian data 4 (by omega)
  obtain ⟨w2, h2⟩ := load_uint32_some bigEndian data 8 (by omega)
  obtain ⟨w3, h3⟩ := load_uint32_some bigEndian data 12 (by omega)
  obtain ⟨w4, h4⟩ := load_uint32_some bigEndian data 16 (by omega)
  obtain ⟨w5, h5⟩ := load_uint32_some bigEndian data 20 (by omega)
  obtain ⟨w6, h6⟩ := load_uint32_some bigEndian data 24 (by omega)
  obtain ⟨w7, h7⟩ := load_uint32_some bigEndian data 28 (by omega)
  obtain ⟨w8, h8⟩ := load_uint32_some bigEndian data 32 (by omega)
  obtain ⟨w9, h9⟩ := load_uint32_some bigEndian data 36 (by omega)
  obtain ⟨w10, h10⟩ := load_uint32_some bigEndian data 40 (by omega)
  obtain ⟨w11, h11⟩ := load_uint32_some bigEndian data 44 (by omega)
  refine ⟨⟨w0, w1, w2, w3, w4, w5, w6, w7, w8, w9, w10, w11⟩, ?_, ?_, ?_⟩
  · simp [gettext_header, h0, h1, h2, h3, h4, h5, h6, h7, h8, h9, h10, h11, Except.toOption]
  · intro hm
    simp only at hm
    simp [as_app_builder_parse_file_gettext, h0, h2, hm, ctx_add_entry, as_app_builder_entry_new]
  · intro hm
    simp only at hm
    simp [as_app_builder_parse_file_gettext, h0, h2, hm, ctx_add_entry, as_app_builder_entry_new]

/-- Witness of C1: the 48-byte little-endian header announcing 5 strings, read
by a little-endian host. -/
theorem gettext_reports_header_count_witness :
    48 ≤ (mo_le 5 0 0 0).length ∧
    ∃ h, gettext_header false (mo_le 5 0 0 0) = some h ∧
      (h.magic = 0x950412de →
        (as_app_builder_parse_file_gettext false ctx_empty (cstr "de")
          (some (mo_le 5 0 0 0))).1 = .ok ∧
        (as_app_builder_parse_file_gettext false ctx_empty (cstr "de")
          (some (mo_le 5 0 0 0))).2.data =
          { locale := cstr "de", nstrings := h.nstrings, percentage := 0 } :: ctx_empty.data) ∧
      (h.magic = 0xde120495 →
        (as_app_builder_parse_file_gettext false ctx_empty (cstr "de")
          (some (mo_le 5 0 0 0))).1 = .ok ∧
        (as_app_builder_parse_file_gettext false ctx_empty (cstr "de")
          (some (mo_le 5 0 0 0))).2.data =
          { locale := cstr "de", nstrings := GUINT32_SWAP_LE_BE h.nstrings, percentage := 0 }
            :: ctx_empty.data) :=
  ⟨by decide, gettext_reports_header_count false ctx_empty (cstr "de") (mo_le 5 0 0 0) (by decide)⟩

/-- Counterexample to C2: in this header the magic is valid, the word at index
3 (byte 12) is 7, and the count that the reader reports is not 7 (it is 5, the
word at index 2). -/
theorem gettext_count_is_not_word_three :
    load_uint32 false (mo_le 5 0 0 0) 0 = .ok 0x950412de ∧
    load_uint32 false (mo_le 5 0 0 0) (4 * 3) = .ok 7 ∧
    (as_app_builder_parse_file_gettext false ctx_empty (cstr "de") (some (mo_le 5 0 0 0))).1 = .ok ∧
    (as_app_builder_parse_file_gettext false ctx_empty (cstr "de")
      (some (mo_le 5 0 0 0))).2.data.map AsAppBuilderEntry.nstrings ≠ [7] := by
  decide

/-- Claim C2, amended: for every buffer of at least 12 bytes with a valid magic
the reader succeeds and the count of the entry it prepends is taken from the
32-bit word at index 2 (byte offset 8): that word as stored for the native
magic, its byte swap for the swapped magic. -/
theorem gettext_count_is_word_two (bigEndian : Bool) (ctx : AsAppBuilderContext)
    (locale : CStr) (data : List Byte) (hlen : 12 ≤ data.length)
    (hmagic : load_uint32 bigEndian data 0 = .ok 0x950412de ∨
      load_uint32 bigEndian data 0 = .ok 0xde120495) :
    ∃ w2, load_uint32 bigEndian data (4 * 2) = .ok w2 ∧
      as_app_builder_parse_file_gettext bigEndian ctx locale (some data) =
        (.ok, ctx_add_entry ctx locale
          (if load_uint32 bigEndian data 0 = .ok 0x950412de then w2 else GUINT32_SWAP_LE_BE w2)) := by
  obtain ⟨w2, h2⟩ := load_uint32_some bigEndian data 8 (by omega)
  refine ⟨w2, h2, ?_⟩
  rcases hmagic with h0 | h0
  · simp [as_app_builder_parse_file_gettext, h0, h2]
  · simp [as_app_builder_parse_file_gettext, h0, h2]

/-- Witness of the amended C2: a 12-byte buffer with the native magic and 5 in
word 2. -/
theorem gettext_count_is_word_two_witness :
    12 ≤ ([0xde, 0x12, 0x04, 0x95, 1, 1, 1, 1, 5, 0, 0, 0] : List Byte).length ∧
    (load_uint32 false [0xde, 0x12, 0x04, 0x95, 1, 1, 1, 1, 5, 0, 0, 0] 0 = .ok 0x950412de ∨
      load_uint32 false [0xde, 0x12, 0x04, 0x95, 1, 1, 1, 1, 5, 0, 0, 0] 0 = .ok 0xde120495) ∧
    ∃ w2, load_uint32 false [0xde, 0x12, 0x04, 0x95, 1, 1, 1, 1, 5, 0, 0, 0] (4 * 2) = .ok w2 ∧
      as_app_builder_parse_file_gettext false ctx_empty (cstr "de")
          (some [0xde, 0x12, 0x04, 0x95, 1, 1, 1, 1, 5, 0, 0, 0]) =
        (.ok, ctx_add_entry ctx_empty (cstr "de")
          (if load_uint32 false [0xde, 0x12, 0x04, 0x95, 1, 1, 1, 1, 5, 0, 0, 0] 0 = .ok 0x950412de
            then w2 else GUINT32_SWAP_LE_BE w2)) :=
  ⟨by decide, by decide,
    gettext_count_is_word_two false ctx_empty (cstr "de")
      [0xde, 0x12, 0x04, 0x95, 1, 1, 1, 1, 5, 0, 0, 0] (by decide) (by decide)⟩

/-- The part of C3 that the code does implement: a buffer whose first word can
be read and is neither magic is rejected as invalid, and the context is left
as it was. -/
theorem gettext_bad_magic_invalid (bigEndian : Bool) (ctx : AsAppBuilderContext)
    (locale : CStr) (data : List Byte) (w : Nat) (h0 : load_uint32 bigEndian data 0 = .ok w)
    (h1 : w ≠ 0x950412de) (h2 : w ≠ 0xde120495) :
    as_app_builder_parse_file_gettext bigEndian ctx locale (some data) = (.invalid, ctx) := by
  simp [as_app_builder_parse_file_gettext, h0, h1, h2]

/-- Claim C3 fails on the code: the 4-byte file that holds only the native magic
is shorter than the header, yet the reader does not report "file is invalid";
it goes on to read `h->nstrings` at bytes 8 to 11, outside the buffer. -/
theorem gettext_short_buffer_not_rejected (ctx : AsAppBuilderContext) (locale : CStr) :
    as_app_builder_parse_file_gettext false ctx locale (some [0xde, 0x12, 0x04, 0x95]) =
      (.out_of_bounds 8, ctx) := by
  rfl

/-! ## The Qt reader -/

theorem be32_length (n : Nat) : (be32 n).length = 4 := rfl

theorem qm_read_data_stream (bigEndian : Bool) (data : List Byte) (hlen : data.length < 2 ^ 32) :
    ∀ (rs : List QmRecord) (pre : List Byte) (fuel nstrings : Nat),
      data = pre ++ qm_stream rs → (∀ r ∈ rs, r.well_formed = true) → rs.length ≤ fuel →
      nstrings < 2 ^ 32 →
      qm_read_data bigEndian data data.length fuel pre.length nstrings =
        .done ((nstrings + count_translations rs) % 2 ^ 32) := by
  intro rs
  induction rs with
  | nil =>
    intro pre fuel nstrings hd _ _ hn
    have hl : ¬ pre.length < data.length := by simp [hd, qm_stream]
    have hn' : (nstrings + 0) % 2 ^ 32 = nstrings := Nat.mod_eq_of_lt hn
    cases fuel <;> simp only [qm_read_data, hl, if_false, count_translations, hn']
  | cons r rs ih =>
    intro pre fuel nstrings hd hwf hfuel hn
    obtain ⟨fuel, rfl⟩ : ∃ f, fuel = f + 1 := ⟨fuel - 1, by simp at hfuel; omega⟩
    have hfuel' : rs.length ≤ fuel := by simpa using hfuel
    have hwf' : ∀ r ∈ rs, r.well_formed = true := fun x hx => hwf x (List.mem_cons_of_mem _ hx)
    have hr := hwf r (List.mem_cons_self _ _)
    have hn1 : (nstrings + 1) % 2 ^ 32 < 2 ^ 32 := Nat.mod_lt _ (by norm_num)
    have hlen' := hlen
    rw [hd] at hlen'
    simp only [qm_stream, List.length_append] at hlen'
    have hlt : pre.length < data.length := by
      rw [hd]; cases r <;> simp [qm_stream, QmRecord.encode]
    cases r with
    | end_marker =>
      simp only [QmRecord.encode, List.length_cons, List.length_nil] at hlen'
      have h8 : _read_uint8 data pre.length = .ok (1, pre.length + 1) := by
        rw [hd]; exact read_uint8_at pre _ 1 (by omega)
      have key : qm_read_data bigEndian data data.length fuel (pre.length + 1) nstrings =
          .done ((nstrings + count_translations (QmRecord.end_marker :: rs)) % 2 ^ 32) := by
        have := ih (pre ++ [1]) fuel nstrings
          (by simp [hd, qm_stream, QmRecord.encode]) hwf' hfuel' hn
        have e : (pre ++ [1]).length = pre.length + 1 := by simp
        rw [e] at this
        rw [this]
        simp only [count_translations, QmRecord.is_translation, Bool.false_eq_true, if_false,
          if_true]
        congr 1
        omega
      simp only [Nat.reducePow] at *
      simp [qm_read_data, hlt, h8, key]
    | obsolete1 b0 b1 b2 b3 =>
      simp only [QmRecord.encode, List.length_cons, List.length_nil] at hlen'
      have h8 : _read_uint8 data pre.length = .ok (5, pre.length + 1) := by
        rw [hd]; exact read_uint8_at pre _ 5 (by omega)
      have hm : (pre.length + 1 + 4) % 2 ^ 32 = pre.length + 1 + 4 := Nat.mod_eq_of_lt (by omega)
      have key : qm_read_data bigEndian data data.length fuel (pre.length + 1 + 4) nstrings =
          .done ((nstrings + count_translations (QmRecord.obsolete1 b0 b1 b2 b3 :: rs)) % 2 ^ 32) := by
        have := ih (pre ++ [5, b0, b1, b2, b3]) fuel nstrings
          (by simp [hd, qm_stream, QmRecord.encode]) hwf' hfuel' hn
        have e : (pre ++ [5, b0, b1, b2, b3]).length = pre.length + 1 + 4 := by simp
        rw [e] at this
        rw [this]
        simp only [count_translations, QmRecord.is_translation, Bool.false_eq_true, if_false,
          if_true]
        congr 1
        omega
      simp only [Nat.reducePow] at *
      simp [qm_read_data, hlt, h8, hm, key]
    | translation_null =>
      simp only [QmRecord.encode, List.length_cons, be32_length] at hlen'
      have h8 : _read_uint8 data pre.length = .ok (3, pre.length + 1) := by
        rw [hd]; exact read_uint8_at pre _ 3 (by omega)
      have h32 : _read_uint32 bigEndian data (pre.length + 1) =
          .ok (0xffffffff, pre.length + 1 + 4) := by
        have := read_uint32_at bigEndian (pre ++ [3]) (qm_stream rs) 0xffffffff
          (by norm_num) (by simp; omega)
        simp only [List.length_append, List.length_cons, List.length_nil] at this
        rw [← this, hd]
        simp [qm_stream, QmRecord.encode]
      have key : qm_read_data bigEndian data data.length fuel (pre.length + 1 + 4)
          ((nstrings + 1) % 2 ^ 32) =
          .done ((nstrings + count_translations (QmRecord.translation_null :: rs)) % 2 ^ 32) := by
        have := ih (pre ++ 3 :: be32 0xffffffff) fuel ((nstrings + 1) % 2 ^ 32)
          (by simp [hd, qm_stream, QmRecord.encode]) hwf' hfuel' hn1
        have e : (pre ++ 3 :: be32 0xffffffff).length = pre.length + 1 + 4 := by simp [be32_length]
        rw [e] at this
        rw [this]
        simp only [count_translations, QmRecord.is_translation, Bool.false_eq_true, if_false,
          if_true]
        congr 1
        omega
      simp only [Nat.reducePow] at *
      simp [qm_read_data, hlt, h8, h32, key]
    | translation payload =>
      simp only [QmRecord.encode, List.length_cons, List.length_append, be32_length] at hlen'
      have hp : payload.length < 0xffffffff := by
        simpa [QmRecord.well_formed] using hr
      have h8 : _read_uint8 data pre.length = .ok (3, pre.length + 1) := by
        rw [hd]; exact read_uint8_at pre _ 3 (by omega)
      have h32 : _read_uint32 bigEndian data (pre.length + 1) =
          .ok (payload.length, pre.length + 1 + 4) := by
        have := read_uint32_at bigEndian (pre ++ [3]) (payload ++ qm_stream rs) payload.length
          (by omega) (by simp; omega)
        simp only [List.length_append, List.length_cons, List.length_nil] at this
        rw [← this, hd]
        simp [qm_stream, QmRecord.encode]
      have hm : (pre.length + 1 + 4 + payload.length) % 2 ^ 32 =
          pre.length + 1 + 4 + payload.length := Nat.mod_eq_of_lt (by omega)
      have key : qm_read_data bigEndian data data.length fuel
          (pre.length + 1 + 4 + payload.length) ((nstrings + 1) % 2 ^ 32) =
          .done ((nstrings + count_translations (QmRecord.translation payload :: rs)) % 2 ^ 32) := by
        have := ih (pre ++ 3 :: (be32 payload.length ++ payload)) fuel ((nstrings + 1) % 2 ^ 32)
          (by simp [hd, qm_stream, QmRecord.encode]) hwf' hfuel' hn1
        have e : (pre ++ 3 :: (be32 payload.length ++ payload)).length =
            pre.length + 1 + 4 + payload.length := by simp [be32_length]; omega
        rw [e] at this
        rw [this]
        simp only [count_translations, QmRecord.is_translation, Bool.false_eq_true, if_false,
          if_true]
        congr 1
        omega
      simp only [Nat.reducePow] at *
      simp [qm_read_data, hlt, h8, h32, hp, hm, key]
    | source_text payload =>
      simp only [QmRecord.encode, List.length_cons, List.length_append, be32_length] at hlen'
      have hp : payload.length < 0xffffffff := by
        simpa [QmRecord.well_formed] using hr
      have h8 : _read_uint8 data pre.length = .ok (6, pre.length + 1) := by
        rw [hd]; exact read_uint8_at pre _ 6 (by omega)
      have h32 : _read_uint32 bigEndian data (pre.length + 1) =
          .ok (payload.length, pre.length + 1 + 4) := by
        have := read_uint32_at bigEndian (pre ++ [6]) (payload ++ qm_stream rs) payload.length
          (by omega) (by simp; omega)
        simp only [List.length_append, List.length_cons, List.length_nil] at this
        rw [← this, hd]
        simp [qm_stream, QmRecord.encode]
      have hm : (pre.length + 1 + 4 + payload.length) % 2 ^ 32 =
          pre.length + 1 + 4 + payload.length := Nat.mod_eq_of_lt (by omega)
      have key : qm_read_data bigEndian data data.length fuel
          (pre.length + 1 + 4 + payload.length) nstrings =
          .done ((nstrings + count_translations (QmRecord.source_text payload :: rs)) % 2 ^ 32) := by
        have := ih (pre ++ 6 :: (be32 payload.length ++ payload)) fuel nstrings
          (by simp [hd, qm_stream, QmRecord.encode]) hwf' hfuel' hn
        have e : (pre ++ 6 :: (be32 payload.length ++ payload)).length =
            pre.length + 1 + 4 + payload.length := by simp [be32_length]; omega
        rw [e] at this
        rw [this]
        simp only [count_translations, QmRecord.is_translation, Bool.false_eq_true, if_false,
          if_true]
        congr 1
        omega
      simp only [Nat.reducePow] at *
      simp [qm_read_data, hlt, h8, h32, hp, hm, key]
    | context payload =>
      simp only [QmRecord.encode, List.length_cons, List.length_append, be32_length] at hlen'
      have hp : payload.length < 0xffffffff := by
        simpa [QmRecord.well_formed] using hr
      have h8 : _read_uint8 data pre.length = .ok (7, pre.length + 1) := by
        rw [hd]; exact read_uint8_at pre _ 7 (by omega)
      have h32 : _read_uint32 bigEndian data (pre.length + 1) =
          .ok (payload.length, pre.length + 1 + 4) := by
        have := read_uint32_at bigEndian (pre ++ [7]) (payload ++ qm_stream rs) payload.length
          (by omega) (by simp; omega)
        simp only [List.length_append, List.length_cons, List.length_nil] at this
        rw [← this, hd]
        simp [qm_stream, QmRecord.encode]
      have hm : (pre.length + 1 + 4 + payload.length) % 2 ^ 32 =
          pre.length + 1 + 4 + payload.length := Nat.mod_eq_of_lt (by omega)
      have key : qm_read_data bigEndian data data.length fuel
          (pre.length + 1 + 4 + payload.length) nstrings =
          .done ((nstrings + count_translations (QmRecord.context payload :: rs)) % 2 ^ 32) := by
        have := ih (pre ++ 7 :: (be32 payload.length ++ payload)) fuel nstrings
          (by simp [hd, qm_stream, QmRecord.encode]) hwf' hfuel' hn
        have e : (pre ++ 7 :: (be32 payload.length ++ payload)).length =
            pre.length + 1 + 4 + payload.length := by simp [be32_length]; omega
        rw [e] at this
        rw [this]
        simp only [count_translations, QmRecord.is_translation, Bool.false_eq_true, if_false,
          if_true]
        congr 1
        omega
      simp only [Nat.reducePow] at *
      simp [qm_read_data, hlt, h8, h32, hp, hm, key]
    | comment payload =>
      simp only [QmRecord.encode, List.length_cons, List.length_append, be32_length] at hlen'
      have hp : payload.length < 0xffffffff := by
        simpa [QmRecord.well_formed] using hr
      have h8 : _read_uint8 data pre.length = .ok (8, pre.length + 1) := by
        rw [hd]; exact read_uint8_at pre _ 8 (by omega)
      have h32 : _read_uint32 bigEndian data (pre.length + 1) =
          .ok (payload.length, pre.length + 1 + 4) := by
        have := read_uint32_at bigEndian (pre ++ [8]) (payload ++ qm_stream rs) payload.length
          (by omega) (by simp; omega)
        simp only [List.length_append, List.length_cons, List.length_nil] at this
        rw [← this, hd]
        simp [qm_stream, QmRecord.encode]
      have hm : (pre.length + 1 + 4 + payload.length) % 2 ^ 32 =
          pre.length + 1 + 4 + payload.length := Nat.mod_eq_of_lt (by omega)
      have key : qm_read_data bigEndian data data.length fuel
          (pre.length + 1 + 4 + payload.length) nstrings =
          .done ((nstrings + count_translations (QmRecord.comment payload :: rs)) % 2 ^ 32) := by
        have := ih (pre ++ 8 :: (be32 payload.length ++ payload)) fuel nstrings
          (by simp [hd, qm_stream, QmRecord.encode]) hwf' hfuel' hn
        have e : (pre ++ 8 :: (be32 payload.length ++ payload)).length =
            pre.length + 1 + 4 + payload.length := by simp [be32_length]; omega
        rw [e] at this
        rw [this]
        simp only [count_translations, QmRecord.is_translation, Bool.false_eq_true, if_false,
          if_true]
        congr 1
        omega
      simp only [Nat.reducePow] at *
      simp [qm_read_data, hlt, h8, h32, hp, hm, key]

theorem count_translations_le (rs : List QmRecord) :
    count_translations rs ≤ (qm_stream rs).length := by
  induction rs with
  | nil => simp [count_translations]
  | cons r rs ih =>
    have : 1 ≤ r.encode.length := by cases r <;> simp [QmRecord.encode]
    simp only [count_translations, qm_stream, List.length_append]
    split <;> omega

/-- Claim C4: a Qt catalog shorter than `2 ^ 32` bytes that consists of the magic,
the header with its skipped part inside the buffer and a stream of well-formed
records with tags 1, 3, 5, 6, 7, 8 is parsed with success, given one unit of
fuel per record, and the entry added has as count the number of tag-3 records,
whatever other records are interleaved. -/
theorem qt_counts_translations (bigEndian : Bool) (fuel : Nat) (ctx : AsAppBuilderContext)
    (locale : CStr) (flag : Byte) (skipped : List Byte) (u0 x0 x1 x2 x3 : Byte)
    (rs : List QmRecord) (hwf : ∀ r ∈ rs, r.well_formed = true)
    (hlen : (qm_file flag skipped u0 x0 x1 x2 x3 rs).length < 2 ^ 32)
    (hfuel : rs.length ≤ fuel) :
    as_app_builder_parse_file_qt bigEndian fuel ctx locale
        (some (qm_file flag skipped u0 x0 x1 x2 x3 rs)) =
      (.ok, ctx_add_entry ctx locale (count_translations rs)) := by
  have hl := hlen
  simp only [qm_file, List.length_append, List.length_cons, be32_length] at hl
  have hmagic : qm_magic.length = 16 := rfl
  rw [hmagic] at hl
  have hc := count_translations_le rs
  -- the reads of the fixed part of the file
  have r1 : _read_uint8 (qm_file flag skipped u0 x0 x1 x2 x3 rs) 16 = .ok (flag.val, 17) :=
    read_uint8_at qm_magic _ flag (by norm_num [hmagic])
  have r2 : _read_uint32 bigEndian (qm_file flag skipped u0 x0 x1 x2 x3 rs) 17 =
      .ok (skipped.length, 21) := by
    have := read_uint32_at bigEndian (qm_magic ++ [flag])
      (skipped ++ u0 :: x0 :: x1 :: x2 :: x3 :: qm_stream rs) skipped.length (by omega)
      (by norm_num [hmagic])
    simpa [qm_file, hmagic] using this
  have r3 : _read_uint8 (qm_file flag skipped u0 x0 x1 x2 x3 rs) (21 + skipped.length) =
      .ok (u0.val, 21 + skipped.length + 1) := by
    have := read_uint8_at (qm_magic ++ flag :: (be32 skipped.length ++ skipped))
      (x0 :: x1 :: x2 :: x3 :: qm_stream rs) u0 (by simp [hmagic, be32_length]; omega)
    have e : (qm_magic ++ flag :: (be32 skipped.length ++ skipped)).length =
        21 + skipped.length := by simp [hmagic, be32_length]; omega
    rw [e] at this
    rw [← this]
    simp [qm_file]
  obtain ⟨w, r4⟩ : ∃ w, _read_uint32 bigEndian (qm_file flag skipped u0 x0 x1 x2 x3 rs)
      (21 + skipped.length + 1) = .ok (w, 21 + skipped.length + 1 + 4) := by
    have hw := read_uint32_bytes bigEndian
      (qm_magic ++ flag :: (be32 skipped.length ++ (skipped ++ [u0])))
      (qm_stream rs) x0 x1 x2 x3 (by simp [hmagic, be32_length]; omega)
    have e : (qm_magic ++ flag :: (be32 skipped.length ++ (skipped ++ [u0]))).length =
        21 + skipped.length + 1 := by simp [hmagic, be32_length]; omega
    rw [e] at hw
    refine ⟨GUINT32_FROM_BE bigEndian (word_of_bytes bigEndian x0 x1 x2 x3), ?_⟩
    rw [← hw]
    simp [qm_file]
  have r5 := qm_read_data_stream bigEndian (qm_file flag skipped u0 x0 x1 x2 x3 rs) hlen rs
    (qm_magic ++ flag :: (be32 skipped.length ++ (skipped ++ [u0, x0, x1, x2, x3])))
    fuel 0 (by simp [qm_file]) hwf hfuel (by norm_num)
  have e : (qm_magic ++ flag :: (be32 skipped.length ++ (skipped ++ [u0, x0, x1, x2, x3]))).length =
      21 + skipped.length + 1 + 4 := by simp [hmagic, be32_length]; omega
  rw [e] at r5
  have hcm : (0 + count_translations rs) % 2 ^ 32 = count_translations rs := by
    rw [Nat.zero_add]; exact Nat.mod_eq_of_lt (by omega)
  rw [hcm] at r5
  have hlm : (qm_file flag skipped u0 x0 x1 x2 x3 rs).length % 2 ^ 32 =
      (qm_file flag skipped u0 x0 x1 x2 x3 rs).length := Nat.mod_eq_of_lt hlen
  have htake : List.take 16 (qm_file flag skipped u0 x0 x1 x2 x3 rs) = qm_magic := by
    simp [qm_file, List.take_append_eq_append_take, hmagic]
  have hge : ¬ (qm_file flag skipped u0 x0 x1 x2 x3 rs).length < 16 := by
    simp only [qm_file, List.length_append, List.length_cons, be32_length, hmagic]; omega
  have hs : (21 + skipped.length) % 2 ^ 32 = 21 + skipped.length := Nat.mod_eq_of_lt (by omega)
  simp only [as_app_builder_parse_file_qt, hlm, hmagic, htake, hge, r1, r2, hs, r3, r4, r5]
  simp


/-- Witness of C4: a catalog with five records, two of them translations. -/
theorem qt_counts_translations_witness :
    (∀ r ∈ [QmRecord.translation [0x41], .obsolete1 0 0 0 0, .translation_null,
        .source_text [1, 2], .end_marker], r.well_formed = true) ∧
    (qm_file 0x42 [9, 9] 0 0 0 0 0 [QmRecord.translation [0x41], .obsolete1 0 0 0 0,
        .translation_null, .source_text [1, 2], .end_marker]).length < 2 ^ 32 ∧
    as_app_builder_parse_file_qt false 5 ctx_empty (cstr "de")
        (some (qm_file 0x42 [9, 9] 0 0 0 0 0 [QmRecord.translation [0x41], .obsolete1 0 0 0 0,
          .translation_null, .source_text [1, 2], .end_marker])) =
      (.ok, ctx_add_entry ctx_empty (cstr "de") (count_translations
        [QmRecord.translation [0x41], .obsolete1 0 0 0 0, .translation_null,
          .source_text [1, 2], .end_marker])) :=
  ⟨by decide, by decide,
    qt_counts_translations false 5 ctx_empty (cstr "de") 0x42 [9, 9] 0 0 0 0 0
      [QmRecord.translation [0x41], .obsolete1 0 0 0 0, .translation_null,
        .source_text [1, 2], .end_marker] (by decide) (by decide) (by decide)⟩

/-- Claim C5: a buffer shorter than 16 bytes, and a buffer whose first 16 bytes
are not the Qt magic, is rejected as invalid by the Qt reader whatever the
fuel; the context, with its entries and its maximum, is returned unchanged. -/
theorem qt_bad_magic_invalid (bigEndian : Bool) (fuel : Nat) (ctx : AsAppBuilderContext)
    (locale : CStr) (data : List Byte)
    (h : data.length < 16 ∨ data.take 16 ≠ qm_magic) :
    as_app_builder_parse_file_qt bigEndian fuel ctx locale (some data) = (.invalid, ctx) := by
  have hmagic : qm_magic.length = 16 := rfl
  have hc : data.length % 2 ^ 32 < 16 ∨ data.take 16 ≠ qm_magic := by
    rcases h with h | h
    · exact Or.inl (lt_of_le_of_lt (Nat.mod_le _ _) h)
    · exact Or.inr h
  simp only [as_app_builder_parse_file_qt, hmagic]
  rw [if_pos hc]

/-- Witness of C5: the empty file. -/
theorem qt_bad_magic_invalid_witness :
    (([] : List Byte).length < 16 ∨ ([] : List Byte).take 16 ≠ qm_magic) ∧
    as_app_builder_parse_file_qt false 0 ctx_empty (cstr "de") (some []) = (.invalid, ctx_empty) :=
  ⟨by decide, qt_bad_magic_invalid false 0 ctx_empty (cstr "de") [] (by decide)⟩

/-- Claim C6 fails on the code: for the 21-byte file made of the magic, a flag
byte and the skip length 0x00001000, the reader advances the cursor to 4117
without comparing it with the length and then reads the byte at index 4117,
far outside the buffer. -/
theorem qt_header_skip_reads_outside (bigEndian : Bool) (fuel : Nat)
    (ctx : AsAppBuilderContext) (locale : CStr) :
    as_app_builder_parse_file_qt bigEndian fuel ctx locale
        (some (qm_magic ++ [0x42, 0x00, 0x00, 0x10, 0x00])) =
      (.out_of_bounds 4117, ctx) := by
  cases bigEndian <;> rfl

/-! ## The scan -/

/-- Where the 32-bit product cannot wrap, line 500 computes the exact
percentage. -/
theorem percentage_of_exact (nstrings max_nstrings : Nat) (h : nstrings * 100 < 2 ^ 32) :
    percentage_of nstrings max_nstrings = min 100 (nstrings * 100 / max_nstrings) := by
  simp only [percentage_of, Nat.mod_eq_of_lt h]
  split <;> omega

/-- Claim C7 fails on the code: a catalog that announces 42949673 strings is the
only one found, so its exact percentage is min (100, 42949673 * 100 / 42949673)
= 100; the 32-bit product wraps to 4 and the scan reports percentage 0. -/
theorem percentage_wraps_for_large_count :
    as_app_builder_search_translations false 0 fs_huge [app_any] usr 0 ⟨false⟩ =
      (.ok, [(0, cstr "de")]) ∧
    percentage_of 42949673 42949673 = 0 ∧
    min 100 (42949673 * 100 / 42949673) = 100 := by
  decide

theorem g_strcmp0_le_iff : ∀ a b : CStr, g_strcmp0 a b ≤ 0 ↔ a = b ∨ List.Lex (· < ·) a b
  | [], [] => by simp [g_strcmp0]
  | [], _ :: _ => by simp [g_strcmp0, List.Lex.nil]
  | _ :: _, [] => by simp [g_strcmp0]
  | a :: as, b :: bs => by
    have ih := g_strcmp0_le_iff as bs
    rcases lt_trichotomy a b with h | h | h
    · simp [g_strcmp0, h, List.Lex.rel h]
    · subst h
      simp [g_strcmp0, ih, List.Lex.cons_iff]
    · have h1 : ¬ a < b := not_lt_of_gt h
      have h2 : a ≠ b := ne_of_gt h
      simp only [g_strcmp0, h1, if_false, h, if_true]
      constructor
      · intro hh; omega
      · rintro (hh | hh)
        · exact absurd (List.cons.inj hh).1 h2
        · cases hh with
          | cons _ => exact absurd rfl h2
          | rel hr => exact absurd hr h1

theorem g_strcmp0_total (a b : CStr) : g_strcmp0 a b ≤ 0 ∨ g_strcmp0 b a ≤ 0 := by
  rw [g_strcmp0_le_iff, g_strcmp0_le_iff]
  rcases lt_trichotomy a b with h | h | h
  · exact Or.inl (Or.inr h)
  · exact Or.inl (Or.inl h)
  · exact Or.inr (Or.inr h)

theorem g_strcmp0_trans (a b c : CStr) (h1 : g_strcmp0 a b ≤ 0) (h2 : g_strcmp0 b c ≤ 0) :
    g_strcmp0 a c ≤ 0 := by
  rw [g_strcmp0_le_iff] at *
  rcases h1 with rfl | h1
  · exact h2
  · rcases h2 with rfl | h2
    · exact Or.inr h1
    · have h : a < c := lt_trans (show a < b from h1) (show b < c from h2)
      exact Or.inr h


theorem g_list_sort_sorted (l : List AsAppBuilderEntry) :
    (g_list_sort l as_app_builder_entry_sort_cb).Pairwise
      (fun a b => as_app_builder_entry_sort_cb a b ≤ 0) := by
  haveI : IsTotal AsAppBuilderEntry (fun a b => as_app_builder_entry_sort_cb a b ≤ 0) :=
    ⟨fun a b => g_strcmp0_total a.locale b.locale⟩
  haveI : IsTrans AsAppBuilderEntry (fun a b => as_app_builder_entry_sort_cb a b ≤ 0) :=
    ⟨fun a b c => g_strcmp0_trans a.locale b.locale c.locale⟩
  exact List.sorted_insertionSort (fun a b => as_app_builder_entry_sort_cb a b ≤ 0) l

theorem g_list_sort_perm (l : List AsAppBuilderEntry) :
    (g_list_sort l as_app_builder_entry_sort_cb).Perm l :=
  List.perm_insertionSort (fun a b => as_app_builder_entry_sort_cb a b ≤ 0) l

theorem add_results_eq (min_percentage : Nat) (l : List AsAppBuilderEntry) :
    add_results min_percentage l =
      (l.filter (fun e => decide (min_percentage ≤ e.percentage))).map
        (fun e => (e.percentage, e.locale)) := by
  induction l with
  | nil => rfl
  | cons e l ih =>
    by_cases h : e.percentage < min_percentage
    · have h' : ¬ min_percentage ≤ e.percentage := by omega
      simp [add_results, h, h', ih]
    · have h' : min_percentage ≤ e.percentage := by omega
      simp [add_results, h, h', ih]

theorem calculate_percentages_eq (max_nstrings : Nat) (l l' : List AsAppBuilderEntry)
    (h : calculate_percentages max_nstrings l = some l') :
    l' = l.map (fun e => { e with percentage := percentage_of e.nstrings max_nstrings }) := by
  induction l generalizing l' with
  | nil => simp [calculate_percentages] at h; simp [h]
  | cons e l ih =>
    simp only [calculate_percentages] at h
    split at h
    · simp at h
    · split at h
      · simp at h
      · rename_i l'' hl
        simp only [Option.some.injEq] at h
        subst h
        simp [ih l'' hl]

/-- What a successful scan reports, in terms of the context left by the two
walkers. -/
theorem search_translations_ok (bigEndian : Bool) (fuel : Nat) (fs : FileSystem)
    (translations : List AsTranslation) (pfx : CStr) (min_percentage : Nat)
    (flags : AsAppBuilderFlags) (langs : List (Nat × CStr))
    (h : as_app_builder_search_translations bigEndian fuel fs translations pfx min_percentage
      flags = (.ok, langs)) :
    ∃ ctx, search_catalogs bigEndian fuel fs translations pfx flags = (.ok, ctx) ∧
      langs = add_results min_percentage (g_list_sort
        (ctx.data.map (fun e => { e with percentage := percentage_of e.nstrings ctx.max_nstrings }))
        as_app_builder_entry_sort_cb) := by
  unfold as_app_builder_search_translations at h
  split at h
  · rename_i ctx hc
    split at h
    · simp at h
    · rename_i data hd
      refine ⟨ctx, hc, ?_⟩
      simp only [Prod.mk.injEq, true_and] at h
      rw [← h, calculate_percentages_eq _ _ _ hd]
  · rename_i st ctx hne hc
    simp only [Prod.mk.injEq] at h
    exact absurd h.1 hne


/-- The pairs reported by a successful scan are, up to order, the pairs of the
entries parsed by the walkers whose percentage reaches the minimum. -/
theorem search_translations_perm (bigEndian : Bool) (fuel : Nat) (fs : FileSystem)
    (translations : List AsTranslation) (pfx : CStr) (min_percentage : Nat)
    (flags : AsAppBuilderFlags) (langs : List (Nat × CStr))
    (h : as_app_builder_search_translations bigEndian fuel fs translations pfx min_percentage
      flags = (.ok, langs)) :
    ∃ ctx, search_catalogs bigEndian fuel fs translations pfx flags = (.ok, ctx) ∧
      langs.Perm
        ((ctx.data.filter
            (fun e => decide (min_percentage ≤ percentage_of e.nstrings ctx.max_nstrings))).map
          (fun e => (percentage_of e.nstrings ctx.max_nstrings, e.locale))) := by
  obtain ⟨ctx, hc, rfl⟩ := search_translations_ok _ _ _ _ _ _ _ _ h
  refine ⟨ctx, hc, ?_⟩
  rw [add_results_eq]
  have hp := ((g_list_sort_perm (ctx.data.map (fun e =>
    { e with percentage := percentage_of e.nstrings ctx.max_nstrings }))).filter
      (fun e => decide (min_percentage ≤ e.percentage))).map (fun e => (e.percentage, e.locale))
  refine hp.trans ?_
  rw [List.filter_map, List.map_map]
  exact List.Perm.refl _

/-- Claim C8: in the sequence of locales that a successful scan passes to
`as_app_add_language`, every locale is equal to or lexicographically below
(byte by byte) every locale passed after it. -/
theorem emitted_locales_ascending (bigEndian : Bool) (fuel : Nat) (fs : FileSystem)
    (translations : List AsTranslation) (pfx : CStr) (min_percentage : Nat)
    (flags : AsAppBuilderFlags) (langs : List (Nat × CStr))
    (h : as_app_builder_search_translations bigEndian fuel fs translations pfx min_percentage
      flags = (.ok, langs)) :
    (langs.map Prod.snd).Pairwise (fun a b => a = b ∨ List.Lex (· < ·) a b) := by
  obtain ⟨ctx, -, rfl⟩ := search_translations_ok _ _ _ _ _ _ _ _ h
  rw [add_results_eq, List.map_map, List.pairwise_map]
  refine List.Pairwise.imp ?_ ((g_list_sort_sorted _).sublist (List.filter_sublist _))
  intro a b hab
  exact (g_strcmp0_le_iff a.locale b.locale).mp hab

/-- Witness of C8: the scan of the installation with one Qt and two gettext
catalogs, at minimum 25. -/
theorem emitted_locales_ascending_witness :
    as_app_builder_search_translations false 10 fs_both [app_any] usr 25 ⟨false⟩ =
      (.ok, [(100, cstr "de"), (50, cstr "de"), (25, cstr "fr")]) ∧
    (([(100, cstr "de"), (50, cstr "de"), (25, cstr "fr")] : List (Nat × CStr)).map
      Prod.snd).Pairwise (fun a b => a = b ∨ List.Lex (· < ·) a b) :=
  ⟨by decide, emitted_locales_ascending false 10 fs_both [app_any] usr 25 ⟨false⟩ _ (by decide)⟩

/-- Claim C9: the (percentage, locale) pairs that a successful scan passes to
`as_app_add_language` are, each as often as it occurs, the pairs of the parsed
entries whose percentage is at least `min_percentage`: every such entry is
reported once and no entry below the minimum is reported. -/
theorem emitted_are_entries_at_or_above (bigEndian : Bool) (fuel : Nat) (fs : FileSystem)
    (translations : List AsTranslation) (pfx : CStr) (min_percentage : Nat)
    (flags : AsAppBuilderFlags) (langs : List (Nat × CStr))
    (h : as_app_builder_search_translations bigEndian fuel fs translations pfx min_percentage
      flags = (.ok, langs)) :
    ∃ ctx, search_catalogs bigEndian fuel fs translations pfx flags = (.ok, ctx) ∧
      langs.Perm
        ((ctx.data.filter
            (fun e => decide (min_percentage ≤ percentage_of e.nstrings ctx.max_nstrings))).map
          (fun e => (percentage_of e.nstrings ctx.max_nstrings, e.locale))) :=
  search_translations_perm bigEndian fuel fs translations pfx min_percentage flags langs h

/-- Witness of C9: the same installation at minimum 50, where the `fr` entry
(25 percent) is left out. -/
theorem emitted_are_entries_at_or_above_witness :
    as_app_builder_search_translations false 10 fs_both [app_any] usr 50 ⟨false⟩ =
      (.ok, [(100, cstr "de"), (50, cstr "de")]) ∧
    ∃ ctx, search_catalogs false 10 fs_both [app_any] usr ⟨false⟩ = (.ok, ctx) ∧
      ([(100, cstr "de"), (50, cstr "de")] : List (Nat × CStr)).Perm
        ((ctx.data.filter
            (fun e => decide (50 ≤ percentage_of e.nstrings ctx.max_nstrings))).map
          (fun e => (percentage_of e.nstrings ctx.max_nstrings, e.locale))) :=
  ⟨by decide,
    emitted_are_entries_at_or_above false 10 fs_both [app_any] usr 50 ⟨false⟩ _ (by decide)⟩

/-- Counterexample to C10: the locale `de` is found by the Qt walker and by the
gettext walker; the scan succeeds and passes `de` to `as_app_add_language`
twice. -/
theorem emitted_locales_not_distinct :
    (as_app_builder_search_translations false 10 fs_both [app_any] usr 25 ⟨false⟩).1 = .ok ∧
    ¬ ((as_app_builder_search_translations false 10 fs_both [app_any] usr 25 ⟨false⟩).2.map
      Prod.snd).Nodup := by
  decide

/-- Claim C10, amended: the locales that a successful scan passes to
`as_app_add_language` are pairwise distinct exactly when the parsed entries
whose percentage is at least `min_percentage` have pairwise distinct locales;
a locale parsed from several such catalogs is reported once per catalog. -/
theorem emitted_locales_distinct_iff (bigEndian : Bool) (fuel : Nat) (fs : FileSystem)
    (translations : List AsTranslation) (pfx : CStr) (min_percentage : Nat)
    (flags : AsAppBuilderFlags) (langs : List (Nat × CStr))
    (h : as_app_builder_search_translations bigEndian fuel fs translations pfx min_percentage
      flags = (.ok, langs)) :
    ∃ ctx, search_catalogs bigEndian fuel fs translations pfx flags = (.ok, ctx) ∧
      ((langs.map Prod.snd).Nodup ↔
        ((ctx.data.filter
            (fun e => decide (min_percentage ≤ percentage_of e.nstrings ctx.max_nstrings))).map
          AsAppBuilderEntry.locale).Nodup) := by
  obtain ⟨ctx, hc, hp⟩ := search_translations_perm _ _ _ _ _ _ _ _ h
  refine ⟨ctx, hc, ?_⟩
  have hq := hp.map Prod.snd
  rw [List.map_map] at hq
  exact hq.nodup_iff

/-- Witness of the amended C10: the same installation at minimum 60, where only
one `de` entry remains. -/
theorem emitted_locales_distinct_iff_witness :
    as_app_builder_search_translations false 10 fs_both [app_any] usr 60 ⟨false⟩ =
      (.ok, [(100, cstr "de")]) ∧
    ∃ ctx, search_catalogs false 10 fs_both [app_any] usr ⟨false⟩ = (.ok, ctx) ∧
      ((([(100, cstr "de")] : List (Nat × CStr)).map Prod.snd).Nodup ↔
        ((ctx.data.filter
            (fun e => decide (60 ≤ percentage_of e.nstrings ctx.max_nstrings))).map
          AsAppBuilderEntry.locale).Nodup) :=
  ⟨by decide,
    emitted_locales_distinct_iff false 10 fs_both [app_any] usr 60 ⟨false⟩ _ (by decide)⟩

/-! ## Hard errors and empty scans -/

/-- Claim C11: when the Qt walker ends with a hard error (an invalid catalog, an
unreadable file, a directory that cannot be opened), and when the Qt walker
succeeds and the gettext walker ends with one, the scan returns that error and
makes no `as_app_add_language` call, whatever was parsed before. -/
theorem walker_failure_aborts (bigEndian : Bool) (fuel : Nat) (fs : FileSystem)
    (translations : List AsTranslation) (pfx : CStr) (min_percentage : Nat)
    (flags : AsAppBuilderFlags) (st : Status)
    (hst : st = .invalid ∨ st = .file_error ∨ st = .dir_error) :
    (∀ ctx1, as_app_builder_search_translations_qt bigEndian fuel fs
        (as_app_builder_ctx_new translations) pfx flags = (st, ctx1) →
      as_app_builder_search_translations bigEndian fuel fs translations pfx min_percentage flags =
        (st, [])) ∧
    (∀ ctx1 ctx2, as_app_builder_search_translations_qt bigEndian fuel fs
        (as_app_builder_ctx_new translations) pfx flags = (.ok, ctx1) →
      as_app_builder_search_translations_gettext bigEndian fs ctx1 pfx flags = (st, ctx2) →
      as_app_builder_search_translations bigEndian fuel fs translations pfx min_percentage flags =
        (st, [])) := by
  have hne : st ≠ .ok := by rcases hst with h | h | h <;> simp [h]
  constructor
  · intro ctx1 h1
    simp only [as_app_builder_search_translations, search_catalogs, h1]
  · intro ctx1 ctx2 h1 h2
    simp only [as_app_builder_search_translations, search_catalogs, h1, h2]

/-- Witness of C11: `app.mo` for `de` is parsed, `app.mo` for `fr` is invalid. -/
theorem walker_failure_aborts_witness :
    (Status.invalid = .invalid ∨ Status.invalid = .file_error ∨ Status.invalid = .dir_error) ∧
    as_app_builder_search_translations_gettext false fs_bad_fr
        (as_app_builder_ctx_new [app_any]) usr ⟨false⟩ =
      (.invalid, { max_nstrings := 4,
                   data := [{ locale := cstr "de", nstrings := 4, percentage := 0 }],
                   translations := [app_any] }) ∧
    as_app_builder_search_translations false 10 fs_bad_fr [app_any] usr 0 ⟨false⟩ =
      (.invalid, []) :=
  ⟨Or.inl rfl, by decide,
    (walker_failure_aborts false 10 fs_bad_fr [app_any] usr 0 ⟨false⟩ .invalid (Or.inl rfl)).2
      (as_app_builder_ctx_new [app_any])
      { max_nstrings := 4, data := [{ locale := cstr "de", nstrings := 4, percentage := 0 }],
        translations := [app_any] }
      (by decide) (by decide)⟩

/-- Claim C14: when both walkers succeed and leave an empty entry list, the scan
succeeds and makes no `as_app_add_language` call, for every `min_percentage`;
the percentage pass runs over the empty list, so it divides by nothing. -/
theorem no_catalog_no_language (bigEndian : Bool) (fuel : Nat) (fs : FileSystem)
    (translations : List AsTranslation) (pfx : CStr) (min_percentage : Nat)
    (flags : AsAppBuilderFlags) (ctx : AsAppBuilderContext)
    (h : search_catalogs bigEndian fuel fs translations pfx flags = (.ok, ctx))
    (hd : ctx.data = []) :
    as_app_builder_search_translations bigEndian fuel fs translations pfx min_percentage flags =
      (.ok, []) ∧ calculate_percentages ctx.max_nstrings ctx.data = some [] := by
  simp [as_app_builder_search_translations, h, hd, calculate_percentages, g_list_sort, add_results]

/-- Witness of C14: the installation in which nothing exists. -/
theorem no_catalog_no_language_witness :
    search_catalogs false 10 fs_nothing [app_any] usr ⟨false⟩ =
      (.ok, as_app_builder_ctx_new [app_any]) ∧
    (as_app_builder_ctx_new [app_any]).data = [] ∧
    as_app_builder_search_translations false 10 fs_nothing [app_any] usr 0 ⟨false⟩ = (.ok, []) ∧
    calculate_percentages (as_app_builder_ctx_new [app_any]).max_nstrings
      (as_app_builder_ctx_new [app_any]).data = some [] :=
  ⟨by decide, rfl,
    no_catalog_no_language false 10 fs_nothing [app_any] usr 0 ⟨false⟩
      (as_app_builder_ctx_new [app_any]) (by decide) rfl⟩

/-! ## What the readers do to the context -/

theorem parse_file_gettext_cases (bigEndian : Bool) (ctx : AsAppBuilderContext) (locale : CStr)
    (contents : Option (List Byte)) :
    (∃ n, as_app_builder_parse_file_gettext bigEndian ctx locale contents =
        (.ok, ctx_add_entry ctx locale n)) ∨
    ((as_app_builder_parse_file_gettext bigEndian ctx locale contents).1 ≠ .ok ∧
      (as_app_builder_parse_file_gettext bigEndian ctx locale contents).2 = ctx) := by
  unfold as_app_builder_parse_file_gettext
  repeat' split
  all_goals first
    | exact Or.inl ⟨_, rfl⟩
    | exact Or.inr ⟨by simp, rfl⟩

theorem parse_file_qt_cases (bigEndian : Bool) (fuel : Nat) (ctx : AsAppBuilderContext)
    (locale : CStr) (contents : Option (List Byte)) :
    (∃ n, as_app_builder_parse_file_qt bigEndian fuel ctx locale contents =
        (.ok, ctx_add_entry ctx locale n)) ∨
    ((as_app_builder_parse_file_qt bigEndian fuel ctx locale contents).1 ≠ .ok ∧
      (as_app_builder_parse_file_qt bigEndian fuel ctx locale contents).2 = ctx) := by
  unfold as_app_builder_parse_file_qt
  dsimp only
  repeat' split
  all_goals first
    | exact Or.inl ⟨_, rfl⟩
    | exact Or.inr ⟨by simp, rfl⟩

theorem reader_call_cases (c : ReaderCall) (ctx : AsAppBuilderContext) :
    (∃ locale n, c.run ctx = (.ok, ctx_add_entry ctx locale n)) ∨
    ((c.run ctx).1 ≠ .ok ∧ (c.run ctx).2 = ctx) := by
  cases c with
  | gettext bigEndian locale contents =>
    rcases parse_file_gettext_cases bigEndian ctx locale contents with ⟨n, h⟩ | h
    · exact Or.inl ⟨locale, n, h⟩
    · exact Or.inr h
  | qt bigEndian fuel locale contents =>
    rcases parse_file_qt_cases bigEndian fuel ctx locale contents with ⟨n, h⟩ | h
    · exact Or.inl ⟨locale, n, h⟩
    · exact Or.inr h

theorem ctx_add_entry_max (ctx : AsAppBuilderContext) (locale : CStr) (n : Nat)
    (h : ctx.max_nstrings = max_nstrings_of ctx.data) :
    (ctx_add_entry ctx locale n).max_nstrings =
      max_nstrings_of (ctx_add_entry ctx locale n).data := by
  simp only [ctx_add_entry, as_app_builder_entry_new, max_nstrings_of, ← h]
  split <;> omega

theorem run_readers_max (calls : List ReaderCall) :
    ∀ ctx : AsAppBuilderContext, ctx.max_nstrings = max_nstrings_of ctx.data →
      (run_readers calls ctx).max_nstrings = max_nstrings_of (run_readers calls ctx).data := by
  induction calls with
  | nil => intro ctx h; exact h
  | cons c cs ih =>
    intro ctx h
    simp only [run_readers]
    apply ih
    rcases reader_call_cases c ctx with ⟨locale, n, hr⟩ | ⟨-, hr⟩
    · rw [hr]; exact ctx_add_entry_max ctx locale n h
    · rw [hr]; exact h

/-- Claim C16: after every sequence of calls of the two catalog readers on the
fresh context, `max_nstrings` is the largest count among the entries (0 when
there is none); and a call that does not return success leaves the context,
hence the entries and `max_nstrings`, as it was. -/
theorem max_nstrings_is_maximum (translations : List AsTranslation) (calls : List ReaderCall) :
    (run_readers calls (as_app_builder_ctx_new translations)).max_nstrings =
      max_nstrings_of (run_readers calls (as_app_builder_ctx_new translations)).data ∧
    ∀ (c : ReaderCall) (ctx : AsAppBuilderContext), (c.run ctx).1 ≠ .ok → (c.run ctx).2 = ctx := by
  refine ⟨run_readers_max calls _ rfl, ?_⟩
  intro c ctx hne
  rcases reader_call_cases c ctx with ⟨locale, n, hr⟩ | ⟨-, hr⟩
  · rw [hr] at hne; exact absurd rfl hne
  · exact hr
/-- Witness of C16: a good gettext catalog, then an invalid Qt catalog. -/
theorem max_nstrings_is_maximum_witness :
    (run_readers [.gettext false (cstr "de") (some (mo_le 5 0 0 0)),
        .qt false 10 (cstr "fr") (some [])] (as_app_builder_ctx_new [])).max_nstrings = 5 ∧
    (run_readers [.gettext false (cstr "de") (some (mo_le 5 0 0 0)),
        .qt false 10 (cstr "fr") (some [])] (as_app_builder_ctx_new [])).max_nstrings =
      max_nstrings_of (run_readers [.gettext false (cstr "de") (some (mo_le 5 0 0 0)),
        .qt false 10 (cstr "fr") (some [])] (as_app_builder_ctx_new [])).data ∧
    ((ReaderCall.qt false 10 (cstr "fr") (some [])).run ctx_empty).2 = ctx_empty :=
  ⟨by decide,
    (max_nstrings_is_maximum [] [.gettext false (cstr "de") (some (mo_le 5 0 0 0)),
      .qt false 10 (cstr "fr") (some [])]).1,
    (max_nstrings_is_maximum [] []).2 (.qt false 10 (cstr "fr") (some [])) ctx_empty
      (by decide)⟩

/-! ## The tag loop -/

theorem qm_cycle_loop (bigEndian : Bool) (fuel nstrings : Nat) :
    qm_read_data bigEndian qm_cycle 31 fuel 26 nstrings = .out_of_fuel := by
  induction fuel with
  | zero => rfl
  | succ fuel ih =>
    have h8 : _read_uint8 qm_cycle 26 = .ok (6, 27) := rfl
    have h32 : _read_uint32 bigEndian qm_cycle 27 = .ok (0xfffffffb, 31) := by
      cases bigEndian <;> rfl
    simp only [qm_read_data, h8, h32]
    simp [ih]

/-- Claim C20 fails on the code: the catalog `qm_cycle` starts with the Qt magic;
its record with tag 6 has the length 0xfffffffb, so the 32-bit cursor goes
from 26 to 31 and wraps back to 26, and the tag loop never ends: no amount of
fuel is enough. -/
theorem backward_length_never_ends (bigEndian : Bool) (fuel : Nat) (ctx : AsAppBuilderContext)
    (locale : CStr) :
    as_app_builder_parse_file_qt bigEndian fuel ctx locale (some qm_cycle) =
      (.out_of_fuel, ctx) := by
  have h1 : _read_uint8 qm_cycle 16 = .ok (0x42, 17) := rfl
  have h2 : _read_uint32 bigEndian qm_cycle 17 = .ok (0, 21) := by cases bigEndian <;> rfl
  have h3 : _read_uint8 qm_cycle 21 = .ok (0, 22) := rfl
  have h4 : _read_uint32 bigEndian qm_cycle 22 = .ok (0, 26) := by cases bigEndian <;> rfl
  have hl : qm_cycle.length % 2 ^ 32 = 31 := rfl
  have hmag : qm_magic.length = 16 := rfl
  have hc : ¬ (31 < 16 ∨ List.take 16 qm_cycle ≠ qm_magic) := by decide
  simp only [as_app_builder_parse_file_qt, hl, hmag, hc, if_false, h1, h2, h3, h4,
    Nat.add_zero, Nat.mod_eq_of_lt (show 21 < 2 ^ 32 by norm_num), qm_cycle_loop]

/-! ## The walkers -/

theorem ctx_add_entry_translations (ctx : AsAppBuilderContext) (locale : CStr) (n : Nat) :
    (ctx_add_entry ctx locale n).translations = ctx.translations := rfl

theorem parse_file_gettext_translations (bigEndian : Bool) (ctx : AsAppBuilderContext)
    (locale : CStr) (contents : Option (List Byte)) :
    (as_app_builder_parse_file_gettext bigEndian ctx locale contents).2.translations =
      ctx.translations := by
  rcases parse_file_gettext_cases bigEndian ctx locale contents with ⟨n, h⟩ | ⟨-, h⟩
  · rw [h]; rfl
  · rw [h]

theorem gettext_fallback_cons (bigEndian : Bool) (fs : FileSystem) (locale : CStr)
    (p : Path) (l : List Path) (ctx : AsAppBuilderContext) :
    gettext_fallback bigEndian fs locale (p :: l) ctx =
      if (as_app_builder_parse_file_gettext bigEndian ctx locale (fs.get_contents p)).1 = .ok then
        gettext_fallback bigEndian fs locale l
          (as_app_builder_parse_file_gettext bigEndian ctx locale (fs.get_contents p)).2
      else as_app_builder_parse_file_gettext bigEndian ctx locale (fs.get_contents p) := by
  rw [gettext_fallback]
  generalize as_app_builder_parse_file_gettext bigEndian ctx locale (fs.get_contents p) = r
  rcases r with ⟨st, c⟩
  cases st <;> simp

theorem gettext_fallback_translations (bigEndian : Bool) (fs : FileSystem) (locale : CStr)
    (l : List Path) : ∀ ctx : AsAppBuilderContext,
      (gettext_fallback bigEndian fs locale l ctx).2.translations = ctx.translations := by
  induction l with
  | nil => intro ctx; rfl
  | cons p l ih =>
    intro ctx
    rw [gettext_fallback_cons]
    split
    · rw [ih, parse_file_gettext_translations]
    · exact parse_file_gettext_translations _ _ _ _

theorem gettext_fallback_append (bigEndian : Bool) (fs : FileSystem) (locale : CStr)
    (l1 l2 : List Path) : ∀ ctx : AsAppBuilderContext,
      gettext_fallback bigEndian fs locale (l1 ++ l2) ctx =
        if (gettext_fallback bigEndian fs locale l1 ctx).1 = .ok then
          gettext_fallback bigEndian fs locale l2 (gettext_fallback bigEndian fs locale l1 ctx).2
        else gettext_fallback bigEndian fs locale l1 ctx := by
  induction l1 with
  | nil => intro ctx; simp [gettext_fallback]
  | cons p l1 ih =>
    intro ctx
    rw [List.cons_append, gettext_fallback_cons, gettext_fallback_cons]
    split
    · exact ih _
    · rename_i h
      simp [h]

theorem gettext_match_translations_eq (bigEndian : Bool) (fs : FileSystem)
    (locale filename : CStr) (path : Path) :
    ∀ (ts : List AsTranslation) (ctx : AsAppBuilderContext) (found : Bool),
      (gettext_match_translations bigEndian fs locale filename path ts ctx found).1 =
        (gettext_fallback bigEndian fs locale
          ((ts.filter (gettext_descriptor_matches filename)).map (fun _ => path)) ctx).1 ∧
      (gettext_match_translations bigEndian fs locale filename path ts ctx found).2.1 =
        (gettext_fallback bigEndian fs locale
          ((ts.filter (gettext_descriptor_matches filename)).map (fun _ => path)) ctx).2 ∧
      ((gettext_fallback bigEndian fs locale
          ((ts.filter (gettext_descriptor_matches filename)).map (fun _ => path)) ctx).1 = .ok →
        (gettext_match_translations bigEndian fs locale filename path ts ctx found).2.2 =
          (found || !((ts.filter (gettext_descriptor_matches filename)).map
            (fun _ => path)).isEmpty)) := by
  intro ts
  induction ts with
  | nil => intro ctx found; simp [gettext_match_translations, gettext_fallback]
  | cons t ts ih =>
    intro ctx found
    rw [gettext_match_translations]
    by_cases hk : t.kind ≠ .gettext ∧ t.kind ≠ .unknown
    · have hm : gettext_descriptor_matches filename t = false := by
        simp [gettext_descriptor_matches, hk.1, hk.2]
      rw [if_pos hk, List.filter_cons, hm]
      exact ih ctx found
    · have hk' : t.kind = .gettext ∨ t.kind = .unknown := by
        by_cases h1 : t.kind = .gettext
        · exact Or.inl h1
        · by_cases h2 : t.kind = .unknown
          · exact Or.inr h2
          · exact absurd ⟨h1, h2⟩ hk
      rw [if_neg hk]
      by_cases hf : filename = t.id ++ cstr ".mo"
      · have hm : gettext_descriptor_matches filename t = true := by
          simp [gettext_descriptor_matches, hk', hf]
        rw [if_pos hf, List.filter_cons, hm]
        simp only [if_true, List.map_cons, gettext_fallback_cons]
        generalize as_app_builder_parse_file_gettext bigEndian ctx locale
          (fs.get_contents path) = r
        rcases r with ⟨st, c⟩
        have := ih c true
        cases st <;> simp_all
      · have hm : gettext_descriptor_matches filename t = false := by
          simp [gettext_descriptor_matches, hf]
        rw [if_neg hf, List.filter_cons, hm]
        exact ih ctx found

theorem isEmpty_append_eq {α : Type} (a b : List α) :
    (a ++ b).isEmpty = (a.isEmpty && b.isEmpty) := by
  cases a <;> simp

theorem gettext_first_pass_eq (bigEndian : Bool) (fs : FileSystem) (locale : CStr)
    (messages_path : Path) (ts : List AsTranslation) :
    ∀ (names : List CStr) (ctx : AsAppBuilderContext) (found : Bool) (mo_paths : List Path),
      ctx.translations = ts →
      (gettext_first_pass bigEndian fs locale messages_path names ctx found mo_paths).1 =
        (gettext_fallback bigEndian fs locale
          (gettext_exact_paths fs ts messages_path names) ctx).1 ∧
      (gettext_first_pass bigEndian fs locale messages_path names ctx found mo_paths).2.1 =
        (gettext_fallback bigEndian fs locale
          (gettext_exact_paths fs ts messages_path names) ctx).2 ∧
      ((gettext_fallback bigEndian fs locale
          (gettext_exact_paths fs ts messages_path names) ctx).1 = .ok →
        (gettext_first_pass bigEndian fs locale messages_path names ctx found mo_paths).2.2.1 =
          (found || !(gettext_exact_paths fs ts messages_path names).isEmpty) ∧
        (gettext_first_pass bigEndian fs locale messages_path names ctx found mo_paths).2.2.2 =
          mo_paths ++ gettext_candidate_paths fs messages_path names) := by
  intro names
  induction names with
  | nil =>
    intro ctx found mo_paths _
    simp [gettext_first_pass, gettext_fallback, gettext_exact_paths, gettext_candidate_paths]
  | cons n rest ih =>
    intro ctx found mo_paths hts
    rw [gettext_first_pass]
    by_cases hex : fs.file_test_exists (messages_path ++ [n]) = true
    · have hnn : ¬ ¬ fs.file_test_exists (messages_path ++ [n]) = true := not_not.mpr hex
      rw [if_neg hnn]
      simp only [gettext_exact_paths, gettext_candidate_paths, hex, if_true]
      rw [gettext_fallback_append, hts]
      obtain ⟨hm1, hm2, hm3⟩ := gettext_match_translations_eq bigEndian fs locale n
        (messages_path ++ [n]) ts ctx found
      have htr := gettext_fallback_translations bigEndian fs locale
        ((ts.filter (gettext_descriptor_matches n)).map (fun _ => messages_path ++ [n])) ctx
      generalize gettext_fallback bigEndian fs locale
        ((ts.filter (gettext_descriptor_matches n)).map (fun _ => messages_path ++ [n])) ctx = e
        at hm1 hm2 hm3 htr
      generalize gettext_match_translations bigEndian fs locale n (messages_path ++ [n])
        ts ctx found = r at hm1 hm2 hm3
      rcases r with ⟨st1, c1, f1⟩
      rcases e with ⟨st2, c2⟩
      simp only at hm1 hm2 hm3 htr
      subst hm1 hm2
      have hih := ih c1 f1 (mo_paths ++ [messages_path ++ [n]]) (htr.trans hts)
      cases st1 with
      | ok =>
        have hf := hm3 rfl
        subst hf
        obtain ⟨h1, h2, h3⟩ := hih
        refine ⟨by simpa using h1, by simpa using h2, ?_⟩
        intro hok
        have hok' : (gettext_fallback bigEndian fs locale
            (gettext_exact_paths fs ts messages_path rest) c1).1 = .ok := by simpa using hok
        obtain ⟨h4, h5⟩ := h3 hok'
        constructor
        · rw [h4, isEmpty_append_eq, Bool.not_and, Bool.or_assoc]
        · simp only [h5, List.append_assoc]
      | _ => simp
    · rw [if_pos hex]
      simp only [gettext_exact_paths, gettext_candidate_paths, hex, if_false, List.nil_append,
        Bool.false_eq_true]
      exact ih ctx found mo_paths hts

/-- Claim C12, amended: for a directory that opens with the listing `names`, the
search of one `LC_MESSAGES` directory parses, in order and up to the first file
that the reader rejects, exactly the files of `gettext_paths_to_parse`: among
the names that pass the existence test, the files named `<id>.mo` for a
descriptor of kind gettext or unspecified (once per such descriptor) when there
is one, whatever the flags; else all of them when fallbacks are enabled; else
none. -/
theorem search_locale_gettext_parses (bigEndian : Bool) (fs : FileSystem)
    (ctx : AsAppBuilderContext) (locale : CStr) (messages_path : Path)
    (flags : AsAppBuilderFlags) (names : List CStr)
    (hopen : fs.dir_open messages_path = some names) :
    as_app_builder_search_locale_gettext bigEndian fs ctx locale messages_path flags =
      gettext_fallback bigEndian fs locale
        (gettext_paths_to_parse fs ctx.translations messages_path names flags) ctx := by
  obtain ⟨h1, h2, h3⟩ := gettext_first_pass_eq bigEndian fs locale messages_path
    ctx.translations names ctx false [] rfl
  simp only [as_app_builder_search_locale_gettext, hopen, gettext_paths_to_parse]
  by_cases hex : gettext_exact_paths fs ctx.translations messages_path names = []
  · rw [hex] at h1 h2 h3
    simp only [gettext_fallback, List.isEmpty_nil, Bool.not_true, Bool.or_self, List.nil_append,
      true_implies] at h1 h2 h3
    generalize gettext_first_pass bigEndian fs locale messages_path names ctx false [] = r
      at h1 h2 h3
    rcases r with ⟨st, c, f, mo⟩
    simp only at h1 h2 h3
    obtain ⟨h4, h5⟩ := h3
    subst h1 h2 h4 h5
    simp only [hex, ne_eq, not_true_eq_false, if_false, Bool.false_eq_true]
    by_cases hfb : flags.use_fallbacks = true
    · simp [hfb]
    · simp [hfb, gettext_fallback]
  · have hne : (gettext_exact_paths fs ctx.translations messages_path names).isEmpty = false := by
      cases hl : gettext_exact_paths fs ctx.translations messages_path names with
      | nil => exact absurd hl hex
      | cons _ _ => rfl
    rw [hne] at h3
    simp only [ne_eq, hex, not_false_eq_true, if_true]
    generalize gettext_fallback bigEndian fs locale
      (gettext_exact_paths fs ctx.translations messages_path names) ctx = e at h1 h2 h3
    generalize gettext_first_pass bigEndian fs locale messages_path names ctx false [] = r
      at h1 h2 h3
    rcases r with ⟨st, c, f, mo⟩
    rcases e with ⟨st2, c2⟩
    simp only at h1 h2 h3
    subst h1 h2
    cases st with
    | ok =>
      obtain ⟨h4, -⟩ := h3 rfl
      simp at h4
      subst h4
      simp
    | _ => simp
/-- Counterexample to C12: the listing holds `app.mo` and the dangling name
`old.mo`, no descriptor is configured and fallbacks are enabled. Parsing every
file of the listing would end with the read error of `old.mo`; the code passes
over the name that fails the existence test and succeeds with the entry of
`app.mo` alone. -/
theorem gettext_search_skips_missing_names :
    fs_dangling.dir_open (lc_messages (cstr "de")) = some [cstr "app.mo", cstr "old.mo"] ∧
    gettext_paths_by_name [] (lc_messages (cstr "de")) [cstr "app.mo", cstr "old.mo"] ⟨true⟩ =
      [lc_messages (cstr "de") ++ [cstr "app.mo"], lc_messages (cstr "de") ++ [cstr "old.mo"]] ∧
    as_app_builder_search_locale_gettext false fs_dangling ctx_empty (cstr "de")
        (lc_messages (cstr "de")) ⟨true⟩ ≠
      gettext_fallback false fs_dangling (cstr "de")
        (gettext_paths_by_name [] (lc_messages (cstr "de")) [cstr "app.mo", cstr "old.mo"] ⟨true⟩)
        ctx_empty := by
  decide

/-- Witness of the amended C12: the same directory. -/
theorem search_locale_gettext_parses_witness :
    fs_dangling.dir_open (lc_messages (cstr "de")) = some [cstr "app.mo", cstr "old.mo"] ∧
    gettext_paths_to_parse fs_dangling ctx_empty.translations (lc_messages (cstr "de"))
        [cstr "app.mo", cstr "old.mo"] ⟨true⟩ = [lc_messages (cstr "de") ++ [cstr "app.mo"]] ∧
    as_app_builder_search_locale_gettext false fs_dangling ctx_empty (cstr "de")
        (lc_messages (cstr "de")) ⟨true⟩ =
      gettext_fallback false fs_dangling (cstr "de")
        (gettext_paths_to_parse fs_dangling ctx_empty.translations (lc_messages (cstr "de"))
          [cstr "app.mo", cstr "old.mo"] ⟨true⟩) ctx_empty :=
  ⟨by decide, by decide,
    search_locale_gettext_parses false fs_dangling ctx_empty (cstr "de")
      (lc_messages (cstr "de")) ⟨true⟩ [cstr "app.mo", cstr "old.mo"] (by decide)⟩

/-- What the code does for a descriptor without translations directory: the Qt
walker returns success at once, whatever descriptors follow. -/
theorem qt_search_from_missing (bigEndian : Bool) (fuel : Nat) (fs : FileSystem) (pfx : CStr)
    (t : AsTranslation) (ts : List AsTranslation) (ctx : AsAppBuilderContext)
    (h : fs.file_test_exists [pfx, cstr "share", t.id, cstr "translations"] = false) :
    qt_search_from bigEndian fuel fs pfx (t :: ts) ctx = (.ok, ctx) := by
  simp [qt_search_from, h]

/-- Claim C13 fails on the code: with the descriptors `gone` (no translations
directory) and `app` (a directory holding `app_de.qm`) in this order, the Qt
walker returns success without any entry, while for the list without the
missing descriptor it records the entry for `de`. -/
theorem missing_directory_stops_walk :
    (as_app_builder_search_translations_qt false 10 fs_both
        (as_app_builder_ctx_new [gone_qt, app_any]) usr ⟨false⟩).1 = .ok ∧
    (as_app_builder_search_translations_qt false 10 fs_both
        (as_app_builder_ctx_new [gone_qt, app_any]) usr ⟨false⟩).2.data = [] ∧
    (as_app_builder_search_translations_qt false 10 fs_both
        (as_app_builder_ctx_new [app_any]) usr ⟨false⟩).2.data =
      [{ locale := cstr "de", nstrings := 2, percentage := 0 }] := by
  decide


theorem takeWhile_not_dot (loc tail : CStr) (hloc : (0x2e : Byte) ∉ loc)
    (htail : tail = [] ∨ ∃ tl, tail = 0x2e :: tl) :
    (loc ++ tail).takeWhile (fun c => decide (c ≠ 0x2e)) = loc := by
  induction loc with
  | nil =>
    rcases htail with rfl | ⟨tl, rfl⟩
    · rfl
    · simp [List.takeWhile]
  | cons c loc ih =>
    have hc : c ≠ 0x2e := fun h => hloc (h ▸ List.mem_cons_self _ _)
    have := ih (fun hx => hloc (List.mem_cons_of_mem _ hx))
    simpa [List.takeWhile, hc] using this

/-- Every file name that starts with the identifier and is longer than it has
the shape used below: the identifier, one character, a part without `.`, and a
rest that is empty or starts with `.`. -/
theorem file_name_decomposes (id filename : CStr) (hp : id <+: filename)
    (hl : id.length < filename.length) :
    ∃ (sep : Byte) (loc tail : CStr), filename = id ++ sep :: (loc ++ tail) ∧
      (0x2e : Byte) ∉ loc ∧ (tail = [] ∨ ∃ tl, tail = 0x2e :: tl) := by
  obtain ⟨r, rfl⟩ := hp
  cases r with
  | nil => simp at hl
  | cons sep r =>
    refine ⟨sep, r.takeWhile (fun c => decide (c ≠ 0x2e)),
      r.dropWhile (fun c => decide (c ≠ 0x2e)), ?_, ?_, ?_⟩
    · rw [List.takeWhile_append_dropWhile]
    · intro hm
      have := List.mem_takeWhile_imp hm
      simp at this
    · cases hd : r.dropWhile (fun c => decide (c ≠ 0x2e)) with
      | nil => exact Or.inl rfl
      | cons c tl =>
        have h0 := List.head_dropWhile_not (fun c => decide (c ≠ (0x2e : Byte))) r
          (by rw [hd]; simp)
        simp only [hd, List.head_cons] at h0
        have hc : c = 0x2e := by simpa using h0
        exact Or.inr ⟨tl, by rw [hc]⟩

theorem qt_read_dir_named (bigEndian : Bool) (fuel : Nat) (fs : FileSystem)
    (t : AsTranslation) (path : Path) (rest : List CStr) (ctx : AsAppBuilderContext)
    (sep : Byte) (loc tail : CStr) (hkind : t.kind = .qt ∨ t.kind = .unknown)
    (hloc : (0x2e : Byte) ∉ loc) (htail : tail = [] ∨ ∃ tl, tail = 0x2e :: tl) :
    qt_read_dir bigEndian fuel fs t path ((t.id ++ sep :: (loc ++ tail)) :: rest) ctx =
      match as_app_builder_parse_file_qt bigEndian fuel ctx loc
          (fs.get_contents (path ++ [t.id ++ sep :: (loc ++ tail)])) with
      | (.ok, ctx) => qt_read_dir bigEndian fuel fs t path rest ctx
      | (st, ctx) => (st, ctx) := by
  have hk : ¬ (t.kind ≠ .qt ∧ t.kind ≠ .unknown) := by
    rcases hkind with h | h <;> simp [h]
  have hp : t.id.isPrefixOf (t.id ++ sep :: (loc ++ tail)) = true := by
    rw [List.isPrefixOf_iff_prefix]; exact List.prefix_append _ _
  have hl : ¬ (t.id ++ sep :: (loc ++ tail)).length < t.id.length + 1 := by
    simp only [List.length_append, List.length_cons]; omega
  have hd : (t.id ++ sep :: (loc ++ tail)).drop (t.id.length + 1) = loc ++ tail := by
    rw [show t.id ++ sep :: (loc ++ tail) = (t.id ++ [sep]) ++ (loc ++ tail) by simp]
    exact List.drop_left' (by simp)
  rw [qt_read_dir]
  simp only [hk, if_false, hp, not_true_eq_false, hl, hd,
    takeWhile_not_dot loc tail hloc htail]

/-- What the loop over one translations directory does with the name at the head
of the listing: for a descriptor of kind qt or unspecified and a file name made
of the identifier, one further character, a part `loc` without `.`, and a rest
that is empty or starts with `.`, the file is parsed under the locale `loc`; on
success the entry added carries `loc` and the loop goes on, on failure the loop
ends with the status of the reader. A file name that does not start with the
identifier, and any file name for a descriptor of kind gettext, is passed
over. -/
theorem qt_locale_of_file_name (bigEndian : Bool) (fuel : Nat) (fs : FileSystem)
    (t : AsTranslation) (path : Path) (rest : List CStr) (ctx : AsAppBuilderContext) :
    (∀ (sep : Byte) (loc tail : CStr), (t.kind = .qt ∨ t.kind = .unknown) →
      (0x2e : Byte) ∉ loc → (tail = [] ∨ ∃ tl, tail = 0x2e :: tl) →
      (∀ ctx1, as_app_builder_parse_file_qt bigEndian fuel ctx loc
            (fs.get_contents (path ++ [t.id ++ sep :: (loc ++ tail)])) = (.ok, ctx1) →
          (∃ n, ctx1 = ctx_add_entry ctx loc n) ∧
          qt_read_dir bigEndian fuel fs t path ((t.id ++ sep :: (loc ++ tail)) :: rest) ctx =
            qt_read_dir bigEndian fuel fs t path rest ctx1) ∧
      (∀ st ctx1, as_app_builder_parse_file_qt bigEndian fuel ctx loc
            (fs.get_contents (path ++ [t.id ++ sep :: (loc ++ tail)])) = (st, ctx1) →
          st ≠ .ok →
          qt_read_dir bigEndian fuel fs t path ((t.id ++ sep :: (loc ++ tail)) :: rest) ctx =
            (st, ctx1))) ∧
    (∀ filename : CStr, ¬ t.id <+: filename →
      qt_read_dir bigEndian fuel fs t path (filename :: rest) ctx =
        qt_read_dir bigEndian fuel fs t path rest ctx) ∧
    (∀ filename : CStr, t.kind = .gettext →
      qt_read_dir bigEndian fuel fs t path (filename :: rest) ctx =
        qt_read_dir bigEndian fuel fs t path rest ctx) := by
  refine ⟨?_, ?_, ?_⟩
  · intro sep loc tail hkind hloc htail
    have hstep := qt_read_dir_named bigEndian fuel fs t path rest ctx sep loc tail hkind hloc htail
    constructor
    · intro ctx1 h1
      constructor
      · rcases parse_file_qt_cases bigEndian fuel ctx loc
          (fs.get_contents (path ++ [t.id ++ sep :: (loc ++ tail)])) with ⟨n, h⟩ | ⟨h, -⟩
        · rw [h1] at h
          exact ⟨n, (Prod.mk.inj h).2⟩
        · rw [h1] at h; exact absurd rfl h
      · rw [hstep, h1]
    · intro st ctx1 h1 hne
      rw [hstep, h1]
      cases st <;> first | rfl | exact absurd rfl hne
  · intro filename hp
    have hp' : ¬ t.id.isPrefixOf filename = true := by
      rw [List.isPrefixOf_iff_prefix]; exact hp
    rw [qt_read_dir]
    by_cases hk : t.kind ≠ .qt ∧ t.kind ≠ .unknown
    · rw [if_pos hk]
    · rw [if_neg hk, if_pos hp']
  · intro filename hk
    rw [qt_read_dir]
    simp [hk]

theorem cut_at_dot_eq (s : CStr) :
    cut_at_dot s = s.takeWhile (fun c => decide (c ≠ 0x2e)) := by
  induction s with
  | nil => rfl
  | cons c cs ih =>
    by_cases h : c = 0x2e
    · simp [cut_at_dot, List.takeWhile, h]
    · simp [cut_at_dot, List.takeWhile, h, ih]

theorem qt_locale_of_name_eq (id filename : CStr) (h : ¬ filename.length < id.length + 1) :
    qt_locale_of_name id filename =
      (filename.drop (id.length + 1)).takeWhile (fun c => decide (c ≠ 0x2e)) := by
  have hl : id.length < filename.length := by omega
  have hd : filename.drop id.length = filename[id.length] :: filename.drop (id.length + 1) :=
    List.drop_eq_getElem_cons hl
  simp only [qt_locale_of_name, hd, cut_at_dot_eq]

theorem qt_locale_of_name_shape (id : CStr) (sep : Byte) (loc tail : CStr)
    (hloc : (0x2e : Byte) ∉ loc) (htail : tail = [] ∨ ∃ tl, tail = 0x2e :: tl) :
    qt_locale_of_name id (id ++ sep :: (loc ++ tail)) = loc := by
  simp only [qt_locale_of_name, List.drop_left, cut_at_dot_eq]
  exact takeWhile_not_dot loc tail hloc htail

theorem qt_read_dir_records (bigEndian : Bool) (fuel : Nat) (fs : FileSystem)
    (t : AsTranslation) (path : Path) :
    ∀ (names : List CStr) (ctx : AsAppBuilderContext),
      ∃ done, done <+: (names.filter (qt_name_qualifies t)).map (qt_locale_of_name t.id) ∧
        (qt_read_dir bigEndian fuel fs t path names ctx).2.data.map AsAppBuilderEntry.locale =
          done.reverse ++ ctx.data.map AsAppBuilderEntry.locale ∧
        ((qt_read_dir bigEndian fuel fs t path names ctx).1 = .ok →
          done = (names.filter (qt_name_qualifies t)).map (qt_locale_of_name t.id)) := by
  intro names
  induction names with
  | nil => intro ctx; exact ⟨[], by simp [qt_read_dir]⟩
  | cons filename rest ih =>
    intro ctx
    rw [qt_read_dir]
    by_cases hk : t.kind ≠ .qt ∧ t.kind ≠ .unknown
    · have hq : qt_name_qualifies t filename = false := by
        simp [qt_name_qualifies, hk.1, hk.2]
      rw [if_pos hk, List.filter_cons, hq]
      exact ih ctx
    · have hk' : t.kind = .qt ∨ t.kind = .unknown := by
        by_cases h1 : t.kind = .qt
        · exact Or.inl h1
        · by_cases h2 : t.kind = .unknown
          · exact Or.inr h2
          · exact absurd ⟨h1, h2⟩ hk
      rw [if_neg hk]
      by_cases hp : t.id.isPrefixOf filename = true
      · have hq : qt_name_qualifies t filename = true := by
          simp [qt_name_qualifies, hk', hp]
        have hnp : ¬ ¬ t.id.isPrefixOf filename = true := not_not.mpr hp
        rw [if_neg hnp, List.filter_cons, hq]
        simp only [if_true, List.map_cons]
        by_cases hl : filename.length < t.id.length + 1
        · rw [if_pos hl]
          exact ⟨[], List.nil_prefix, by simp, by simp⟩
        · rw [if_neg hl, ← qt_locale_of_name_eq t.id filename hl]
          rcases parse_file_qt_cases bigEndian fuel ctx (qt_locale_of_name t.id filename)
            (fs.get_contents (path ++ [filename])) with ⟨n, h⟩ | ⟨h1, h2⟩
          · rw [h]
            obtain ⟨done, hd1, hd2, hd3⟩ := ih (ctx_add_entry ctx (qt_locale_of_name t.id filename) n)
            refine ⟨qt_locale_of_name t.id filename :: done, ?_, ?_, ?_⟩
            · exact (List.prefix_cons_inj _).mpr hd1
            · simp only [hd2]
              simp [ctx_add_entry, as_app_builder_entry_new]
            · intro hok
              simp only at hok
              rw [hd3 hok]
          · generalize as_app_builder_parse_file_qt bigEndian fuel ctx
              (qt_locale_of_name t.id filename) (fs.get_contents (path ++ [filename])) = r
              at h1 h2
            rcases r with ⟨st, c⟩
            simp only at h1 h2
            subst h2
            refine ⟨[], List.nil_prefix, ?_, ?_⟩
            · cases st <;> first | exact absurd rfl h1 | simp
            · cases st <;> first | exact absurd rfl h1 | simp
      · have hq : qt_name_qualifies t filename = false := by
          simp [qt_name_qualifies, hp]
        rw [if_pos hp, List.filter_cons, hq]
        exact ih ctx

theorem qt_search_from_records (bigEndian : Bool) (fuel : Nat) (fs : FileSystem) (pfx : CStr) :
    ∀ (ts : List AsTranslation) (ctx : AsAppBuilderContext),
      ∃ done, done <+: qt_recorded_locales fs pfx ts ∧
        (qt_search_from bigEndian fuel fs pfx ts ctx).2.data.map AsAppBuilderEntry.locale =
          done.reverse ++ ctx.data.map AsAppBuilderEntry.locale ∧
        ((qt_search_from bigEndian fuel fs pfx ts ctx).1 = .ok →
          done = qt_recorded_locales fs pfx ts) := by
  intro ts
  induction ts with
  | nil => intro ctx; exact ⟨[], by simp [qt_search_from, qt_recorded_locales]⟩
  | cons t ts ih =>
    intro ctx
    rw [qt_search_from, qt_recorded_locales]
    by_cases hex : fs.file_test_exists [pfx, cstr "share", t.id, cstr "translations"] = true
    · simp only [hex, not_true_eq_false, if_false, if_true]
      cases hop : fs.dir_open [pfx, cstr "share", t.id, cstr "translations"] with
      | none => exact ⟨[], by simp⟩
      | some names =>
        simp only
        obtain ⟨d1, p1, e1, f1⟩ := qt_read_dir_records bigEndian fuel fs t
          [pfx, cstr "share", t.id, cstr "translations"] names ctx
        generalize qt_read_dir bigEndian fuel fs t
          [pfx, cstr "share", t.id, cstr "translations"] names ctx = r at e1 f1
        rcases r with ⟨st, c⟩
        simp only at e1 f1
        cases st with
        | ok =>
          have hd1 := f1 rfl
          obtain ⟨d2, p2, e2, f2⟩ := ih c
          refine ⟨d1 ++ d2, ?_, ?_, ?_⟩
          · rw [hd1]; exact (List.prefix_append_right_inj _).mpr p2
          · simp only [e2, e1, List.reverse_append, List.append_assoc]
          · intro hok
            rw [f2 hok, hd1]
        | _ =>
          refine ⟨d1, ?_, e1, ?_⟩
          · exact p1.trans (List.prefix_append _ _)
          · intro hok; simp at hok
    · simp only [hex, not_false_eq_true, if_true, Bool.false_eq_true, if_false]
      exact ⟨[], by simp⟩

/-- Claim C19: the locales of the entries that
`as_app_builder_search_translations_qt` adds to the context are, in the order
of the walk, the locales of `qt_recorded_locales`: for each descriptor of kind
qt or unspecified that the walk reaches and each file name of its translations
directory that starts with the identifier, the part of the name after the
identifier and one separator character, cut at the first following `.`; file
names that do not start with the identifier and descriptors of kind gettext
contribute no entry. When the walk ends early the entries added are those of
an initial part of that list. The second part pins the locale of a name: for
the identifier, one character, a part `loc` without `.`, and a rest that is
empty or starts with `.`, it is `loc`. -/
theorem qt_walker_records_locales (bigEndian : Bool) (fuel : Nat) (fs : FileSystem)
    (ctx : AsAppBuilderContext) (pfx : CStr) (flags : AsAppBuilderFlags) :
    (∃ done, done <+: qt_recorded_locales fs pfx ctx.translations ∧
      (as_app_builder_search_translations_qt bigEndian fuel fs ctx pfx flags).2.data.map
          AsAppBuilderEntry.locale = done.reverse ++ ctx.data.map AsAppBuilderEntry.locale ∧
      ((as_app_builder_search_translations_qt bigEndian fuel fs ctx pfx flags).1 = .ok →
        done = qt_recorded_locales fs pfx ctx.translations)) ∧
    (∀ (id : CStr) (sep : Byte) (loc tail : CStr), (0x2e : Byte) ∉ loc →
      (tail = [] ∨ ∃ tl, tail = 0x2e :: tl) →
      qt_locale_of_name id (id ++ sep :: (loc ++ tail)) = loc) :=
  ⟨qt_search_from_records bigEndian fuel fs pfx ctx.translations ctx,
    fun id sep loc tail => qt_locale_of_name_shape id sep loc tail⟩

/-- Witness of C19: the descriptors `foo` of kind gettext and of kind qt over the
directory with `foo_de.qm`, `foo_pt_BR.qm` and `bar_fr.qm`: the walk succeeds
and records `de` and `pt_BR`, the entry added last standing first. -/
theorem qt_walker_records_locales_witness :
    qt_recorded_locales fs_foo usr [foo_gettext, foo_qt] = [cstr "de", cstr "pt_BR"] ∧
    qt_locale_of_name (cstr "foo") (cstr "foo_de.qm") = cstr "de" ∧
    (as_app_builder_search_translations_qt false 10 fs_foo
        (as_app_builder_ctx_new [foo_gettext, foo_qt]) usr ⟨false⟩).1 = .ok ∧
    (as_app_builder_search_translations_qt false 10 fs_foo
        (as_app_builder_ctx_new [foo_gettext, foo_qt]) usr ⟨false⟩).2.data.map
      AsAppBuilderEntry.locale = [cstr "pt_BR", cstr "de"] ∧
    (∃ done, done <+: qt_recorded_locales fs_foo usr
        (as_app_builder_ctx_new [foo_gettext, foo_qt]).translations ∧
      (as_app_builder_search_translations_qt false 10 fs_foo
          (as_app_builder_ctx_new [foo_gettext, foo_qt]) usr ⟨false⟩).2.data.map
            AsAppBuilderEntry.locale =
        done.reverse ++ (as_app_builder_ctx_new [foo_gettext, foo_qt]).data.map
          AsAppBuilderEntry.locale ∧
      ((as_app_builder_search_translations_qt false 10 fs_foo
          (as_app_builder_ctx_new [foo_gettext, foo_qt]) usr ⟨false⟩).1 = .ok →
        done = qt_recorded_locales fs_foo usr
          (as_app_builder_ctx_new [foo_gettext, foo_qt]).translations)) ∧
    (∀ (id : CStr) (sep : Byte) (loc tail : CStr), (0x2e : Byte) ∉ loc →
      (tail = [] ∨ ∃ tl, tail = 0x2e :: tl) →
      qt_locale_of_name id (id ++ sep :: (loc ++ tail)) = loc) :=
  ⟨by decide, by decide, by decide, by decide,
    qt_walker_records_locales false 10 fs_foo (as_app_builder_ctx_new [foo_gettext, foo_qt])
      usr ⟨false⟩⟩

/-! ## Order of emission and the zero maximum -/

theorem g_strcmp0_self : ∀ a : CStr, g_strcmp0 a a = 0
  | [] => rfl
  | a :: as => by simp [g_strcmp0, g_strcmp0_self as]

theorem filter_orderedInsert (l : CStr) (a : AsAppBuilderEntry) :
    ∀ ys : List AsAppBuilderEntry,
      (ys.orderedInsert (fun a b => as_app_builder_entry_sort_cb a b ≤ 0) a).filter
          (fun e => decide (e.locale = l)) =
        if a.locale = l then a :: ys.filter (fun e => decide (e.locale = l))
        else ys.filter (fun e => decide (e.locale = l))
  | [] => by
    by_cases h : a.locale = l <;> simp [h]
  | b :: ys => by
    have ih := filter_orderedInsert l a ys
    by_cases hr : as_app_builder_entry_sort_cb a b ≤ 0
    · simp only [List.orderedInsert, hr, if_true]
      by_cases h : a.locale = l <;> simp [List.filter_cons, h]
    · have hne : a.locale ≠ b.locale := by
        intro he
        apply hr
        simp [as_app_builder_entry_sort_cb, he, g_strcmp0_self]
      simp only [List.orderedInsert, hr, if_false]
      by_cases hb : b.locale = l
      · have ha : ¬ a.locale = l := fun h => hne (h.trans hb.symm)
        simp only [ha, if_false] at ih
        simp [List.filter_cons, hb, ha, ih]
      · by_cases ha : a.locale = l
        · simp only [ha, if_true] at ih
          simp [List.filter_cons, hb, ha, ih]
        · simp only [ha, if_false] at ih
          simp [List.filter_cons, hb, ha, ih]

theorem g_list_sort_stable (l : CStr) (xs : List AsAppBuilderEntry) :
    (g_list_sort xs as_app_builder_entry_sort_cb).filter (fun e => decide (e.locale = l)) =
      xs.filter (fun e => decide (e.locale = l)) := by
  induction xs with
  | nil => rfl
  | cons a xs ih =>
    simp only [g_list_sort, List.insertionSort] at ih ⊢
    rw [filter_orderedInsert, ih]
    by_cases h : a.locale = l <;> simp [List.filter_cons, h]

/-- Counterexample to C17: the Qt walker runs first and inserts the `de` entry
with 2 strings (50 percent); the gettext walker then inserts the `de` entry
with 4 strings (100 percent); the scan emits the entry inserted last first. -/
theorem emitted_ties_not_in_insertion_order :
    (as_app_builder_search_translations_qt false 10 fs_both
        (as_app_builder_ctx_new [app_any]) usr ⟨false⟩).2.data =
      [{ locale := cstr "de", nstrings := 2, percentage := 0 }] ∧
    (search_catalogs false 10 fs_both [app_any] usr ⟨false⟩).2.data =
      [{ locale := cstr "fr", nstrings := 1, percentage := 0 },
       { locale := cstr "de", nstrings := 4, percentage := 0 },
       { locale := cstr "de", nstrings := 2, percentage := 0 }] ∧
    as_app_builder_search_translations false 10 fs_both [app_any] usr 0 ⟨false⟩ =
      (.ok, [(100, cstr "de"), (50, cstr "de"), (25, cstr "fr")]) := by
  decide

/-- Claim C17, amended: in a successful scan the entries of one locale are passed
to `as_app_add_language` in the order in which they stand in the list of the
context, which is prepend-ordered: the entry inserted last stands first and is
emitted first. -/
theorem emitted_ties_in_list_order (bigEndian : Bool) (fuel : Nat) (fs : FileSystem)
    (translations : List AsTranslation) (pfx : CStr) (min_percentage : Nat)
    (flags : AsAppBuilderFlags) (langs : List (Nat × CStr))
    (h : as_app_builder_search_translations bigEndian fuel fs translations pfx min_percentage
      flags = (.ok, langs)) :
    ∃ ctx, search_catalogs bigEndian fuel fs translations pfx flags = (.ok, ctx) ∧
      ∀ l : CStr, langs.filter (fun p => decide (p.2 = l)) =
        ((ctx.data.filter (fun e => decide (e.locale = l))).filter
            (fun e => decide (min_percentage ≤ percentage_of e.nstrings ctx.max_nstrings))).map
          (fun e => (percentage_of e.nstrings ctx.max_nstrings, e.locale)) := by
  obtain ⟨ctx, hc, rfl⟩ := search_translations_ok _ _ _ _ _ _ _ _ h
  refine ⟨ctx, hc, ?_⟩
  intro l
  rw [add_results_eq, List.filter_map]
  have hcomp : ((fun p : Nat × CStr => decide (p.2 = l)) ∘
      fun e : AsAppBuilderEntry => (e.percentage, e.locale)) =
      fun e => decide (e.locale = l) := rfl
  rw [hcomp, List.filter_filter]
  have hswap : (fun a : AsAppBuilderEntry =>
      (decide (a.locale = l) && decide (min_percentage ≤ a.percentage))) =
      fun a => (decide (min_percentage ≤ a.percentage) && decide (a.locale = l)) := by
    funext a; exact Bool.and_comm _ _
  rw [hswap, ← List.filter_filter, g_list_sort_stable, List.filter_map, List.filter_map,
    List.map_map]
  rfl

/-- Witness of the amended C17: the two `de` entries of the example. -/
theorem emitted_ties_in_list_order_witness :
    as_app_builder_search_translations false 10 fs_both [app_any] usr 0 ⟨false⟩ =
      (.ok, [(100, cstr "de"), (50, cstr "de"), (25, cstr "fr")]) ∧
    ∃ ctx, search_catalogs false 10 fs_both [app_any] usr ⟨false⟩ = (.ok, ctx) ∧
      ∀ l : CStr, ([(100, cstr "de"), (50, cstr "de"), (25, cstr "fr")] :
          List (Nat × CStr)).filter (fun p => decide (p.2 = l)) =
        ((ctx.data.filter (fun e => decide (e.locale = l))).filter
            (fun e => decide (0 ≤ percentage_of e.nstrings ctx.max_nstrings))).map
          (fun e => (percentage_of e.nstrings ctx.max_nstrings, e.locale)) :=
  ⟨by decide,
    emitted_ties_in_list_order false 10 fs_both [app_any] usr 0 ⟨false⟩ _ (by decide)⟩

/-- Claim C18 fails on the code: a valid gettext catalog that announces 0 strings
is the only one found; the walkers succeed with one entry and `max_nstrings`
still 0, and the percentage pass divides by zero. -/
theorem zero_count_divides_by_zero :
    search_catalogs false 10 fs_zero [app_any] usr ⟨false⟩ =
      (.ok, { max_nstrings := 0, data := [{ locale := cstr "de", nstrings := 0, percentage := 0 }],
              translations := [app_any] }) ∧
    as_app_builder_search_translations false 10 fs_zero [app_any] usr 0 ⟨false⟩ =
      (.div_by_zero, []) := by
  decide


end AsAppBuilder
